import Mathlib

/-!
Verification of the mrz-scan segmentation-and-classification pipeline.

The JavaScript sources are shallowly embedded: JS numbers that only ever
hold integers become `Int`/`Nat`, fractional arithmetic becomes `ℚ`,
JS strings become `List Char`, out-of-bounds array reads (which yield
`undefined` in JS) become `Option`, thrown exceptions become `Except`,
and external collaborators (image library, HOG extractor, kernel/SVM
solver, filesystem) become function parameters.
-/

namespace MrzScan

/-! ### JS string model

JavaScript strings are modelled as `List Char`, so that string
concatenation is `List.append` and substring containment is explicit. -/

/-- Coercion from a Lean string literal to the `List Char` model of a JS string. -/
def s2l (s : String) : List Char := s.data

/-- Occurrence of `pat` as a contiguous segment of `l` (the error messages
"name" a path exactly when the path occurs inside them). -/
def seenIn (pat l : List Char) : Prop := ∃ s t, l = s ++ (pat ++ t)

/-- Boolean test that `pat` is an initial segment of `l`. -/
def startsWithL : List Char → List Char → Bool
  | [], _ => true
  | _ :: _, [] => false
  | p :: ps, c :: cs => p == c && startsWithL ps cs

/-- Boolean version of `seenIn`, used to evaluate concrete non-occurrence. -/
def occursIn (pat : List Char) : List Char → Bool
  | [] => pat.isEmpty
  | l@(_ :: t) => startsWithL pat l || occursIn pat t

/-- Truthiness of an optional JS string: `undefined` and the empty string
are falsy, every other string is truthy. -/
def jsTruthyStr : Option (List Char) → Bool
  | none => false
  | some s => !s.isEmpty

/-! ### SVM classifier configuration — src/build/svm.js, src/src/svm.js, src/index.js

Constants from the external libsvm-js collaborator (`SVM.SVM_TYPES`,
`SVM.KERNEL_TYPES`). -/

inductive SvmType where
  | C_SVC
  | NU_SVC
  | ONE_CLASS
  | EPSILON_SVR
  | NU_SVR
deriving DecidableEq, Repr

inductive KernelType where
  | LINEAR
  | POLYNOMIAL
  | RBF
  | SIGMOID
  | PRECOMPUTED
deriving DecidableEq, Repr

/-- Caller-supplied `SVMOptions` object: a JS object with possibly absent
keys, so every field is an `Option`. -/
structure UserSvmOptions where
  type : Option SvmType := none
  kernel : Option KernelType := none
  gamma : Option ℚ := none
  nu : Option ℚ := none
  quiet : Option Bool := none
deriving DecidableEq, Repr

/-- Options object actually handed to the SVM constructor after the
`Object.assign({}, defaults, SVMOptions, { kernel: PRECOMPUTED })` merge.
`type` is always present (both default objects carry it); `gamma` and `nu`
may still be absent because each default object carries only one of them. -/
structure MergedSvmOptions where
  type : SvmType
  kernel : KernelType
  gamma : Option ℚ
  nu : Option ℚ
  quiet : Option Bool
deriving DecidableEq, Repr

/-- Merge for the one-class branch:
`Object.assign({}, SVMOptionsOneClass, SVMOptions, { kernel: PRECOMPUTED })`
where `SVMOptionsOneClass = { type: ONE_CLASS, kernel: PRECOMPUTED, nu: 0.5, quiet: true }`. -/
def mergeOneClass (user : UserSvmOptions) : MergedSvmOptions :=
  { type := user.type.getD SvmType.ONE_CLASS
    kernel := KernelType.PRECOMPUTED
    gamma := user.gamma
    nu := user.nu.orElse (fun _ => some (1/2 : ℚ))
    quiet := user.quiet.orElse (fun _ => some true) }

/-- Merge for the multi-class branch:
`Object.assign({}, SVMNormalOptions, SVMOptions, { kernel: PRECOMPUTED })`
where `SVMNormalOptions = { type: C_SVC, kernel: PRECOMPUTED, gamma: 1, quiet: true }`. -/
def mergeNormal (user : UserSvmOptions) : MergedSvmOptions :=
  { type := user.type.getD SvmType.C_SVC
    kernel := KernelType.PRECOMPUTED
    gamma := user.gamma.orElse (fun _ => some (1 : ℚ))
    nu := user.nu
    quiet := user.quiet.orElse (fun _ => some true) }

/-- One training sample (`letters` entry): descriptor plus class label
(a character code point). -/
structure TrainSample where
  descriptor : List ℚ
  label : Int
deriving DecidableEq, Repr

/-- Observable result of `train`: the configuration given to the SVM
constructor (the classifier itself is the external solver), the raw
training descriptors that get persisted, and the `oneClass` flag. -/
structure TrainResult where
  svmOptions : MergedSvmOptions
  descriptors : List (List ℚ)
  oneClass : Bool
deriving DecidableEq, Repr

/-- Embedding of `train(letters, SVMOptions, kernelOptions)` from
src/build/svm.js lines 149–195 (identical in src/src/svm.js 197–238).
`uniq(Ytrain)` only feeds the `length === 1` test, so any
duplicate-removal with the same distinct-value count is faithful. -/
def train (letters : List TrainSample) (userOptions : UserSvmOptions) : TrainResult :=
  let Ytrain := letters.map (·.label)
  let uniqLabels := Ytrain.dedup
  let opts :=
    if uniqLabels.length = 1 then mergeOneClass userOptions
    else mergeNormal userOptions
  { svmOptions := opts
    descriptors := letters.map (·.descriptor)
    oneClass := decide (opts.type = SvmType.ONE_CLASS) }

/-! ### Descriptor batch — getDescriptors, src/src/svm.js lines 91–109

The HOG computation (`extractHOG`) and the image type are external
collaborators, so they are parameters. `Math.max.apply(null, heights)` /
`Math.min.apply(null, heights)` on a non-empty list are the list maximum
and minimum; the empty case (JS `-Infinity`/`Infinity`) has no ℚ value
and is outside every claim, so the fold is seeded with a dead default. -/

/-- JS `Math.max.apply(null, l)` for non-empty `l`. -/
def jsMax : List ℚ → ℚ
  | [] => 0
  | x :: xs => xs.foldl max x

/-- JS `Math.min.apply(null, l)` for non-empty `l`. -/
def jsMin : List ℚ → ℚ
  | [] => 0
  | x :: xs => xs.foldl min x

/-- Embedding of `getDescriptors(images)`: one HOG vector per image, then
one bonus scalar appended to each, normalising the image height against
the batch min/max heights. -/
def getDescriptors {α : Type} (extractHOG : α → List ℚ) (height : α → ℚ)
    (images : List α) : List (List ℚ) :=
  let result := images.map extractHOG
  let heights := images.map height
  let maxHeight := jsMax heights
  let minHeight := jsMin heights
  (result.zip images).map (fun rd =>
    rd.1 ++ [if minHeight ≠ maxHeight
             then (height rd.2 - minHeight) / (maxHeight - minHeight)
             else 1])

/-! ### Model path resolution — getFilePath, src/index.js lines 223–254

Environment variables, the injected `externalModelPaths` object, the
filesystem and the working directory are parameters. `path.join` on the
plain relative components used here just inserts a separator. -/

/-- Resolved path pair. -/
structure ModelPaths where
  descriptors : List Char
  model : List Char
deriving DecidableEq, Repr

/-- The object passed to `setModelPaths`: a JS object whose two keys may
be absent. -/
structure ModelPathsObj where
  descriptors : Option (List Char) := none
  model : Option (List Char) := none
deriving DecidableEq, Repr

/-- Model of `path.join(a, b)` for the simple components used by
`getFilePath`. -/
def pathJoin (a b : List Char) : List Char := a ++ s2l ("/") ++ b

/-- Embedding of `getFilePath()` from src/index.js lines 223–254:
environment variables first, then the injected paths object, then the
serverless directory, then the local public directory, else throw. -/
def getFilePath (envDescriptors envModel : Option (List Char))
    (external : Option ModelPathsObj) (existsSync : List Char → Bool)
    (cwd : List Char) : Except (List Char) ModelPaths :=
  if jsTruthyStr envDescriptors && jsTruthyStr envModel then
    .ok ⟨envDescriptors.getD [], envModel.getD []⟩
  else if jsTruthyStr (external.bind (·.descriptors))
       && jsTruthyStr (external.bind (·.model)) then
    .ok ⟨(external.bind (·.descriptors)).getD [], (external.bind (·.model)).getD []⟩
  else
    let prodPath := s2l ("/var/task/public/mrz-models")
    let descriptorsProd := pathJoin prodPath (s2l ("ESC-v2.svm.descriptors"))
    let modelProd := pathJoin prodPath (s2l ("ESC-v2.svm.model"))
    if existsSync descriptorsProd then .ok ⟨descriptorsProd, modelProd⟩
    else
      let localPath := pathJoin cwd (s2l ("public/mrz-models"))
      let descriptorsLocal := pathJoin localPath (s2l ("ESC-v2.svm.descriptors"))
      let modelLocal := pathJoin localPath (s2l ("ESC-v2.svm.model"))
      if existsSync descriptorsLocal then .ok ⟨descriptorsLocal, modelLocal⟩
      else .error (s2l ("MRZ model files not found in any expected locations"))

/-! ### applyModel — src/build/svm.js lines 104–131, src/src/svm.js 142–165

Filesystem reads, BSON deserialization, `SVM.load` and the kernel/predict
computation are external collaborators; each fallible one returns
`Option` (`none` = the JS call threw), and the catch block builds one
error message naming both resolved paths. -/

/-- The error message assembled in the catch block of `applyModel`. -/
def loadErrMsg (descriptorsPath modelPath original : List Char) : List Char :=
  s2l ("Error loading model files. Tried paths:\n        - descriptors: ")
    ++ descriptorsPath
    ++ s2l ("\n        - model: ") ++ modelPath
    ++ s2l ("\n        Original error: ") ++ original

/-- Embedding of `applyModel(Xtest)`. `β`: raw file bytes; `κ`: the
deserialized `{descriptors, kernelOptions}` payload beyond the descriptor
list; `γ`: the loaded classifier. `eRead`, `eDeser`, `eLoad` are the
`error.message` strings of the respective underlying failures. -/
def applyModel {β κ γ : Type}
    (envDescriptors envModel : Option (List Char)) (external : Option ModelPathsObj)
    (existsSync : List Char → Bool) (cwd : List Char)
    (readFileBin : List Char → Option β)
    (bsonDeserialize : β → Option ((List (List ℚ)) × κ))
    (readFileText : List Char → Option (List Char))
    (svmLoad : List Char → Option γ)
    (predictFn : γ → List (List ℚ) → κ → List (List ℚ) → List Int)
    (eRead eDeser eText eLoad : List Char)
    (Xtest : List (List ℚ)) : Except (List Char) (List Int) :=
  match getFilePath envDescriptors envModel external existsSync cwd with
  | .error e => .error e
  | .ok paths =>
    match readFileBin paths.descriptors with
    | none => .error (loadErrMsg paths.descriptors paths.model eRead)
    | some raw =>
      match bsonDeserialize raw with
      | none => .error (loadErrMsg paths.descriptors paths.model eDeser)
      | some td =>
        match readFileText paths.model with
        | none => .error (loadErrMsg paths.descriptors paths.model eText)
        | some modelTxt =>
          match svmLoad modelTxt with
          | none => .error (loadErrMsg paths.descriptors paths.model eLoad)
          | some classifier => .ok (predictFn classifier td.1 td.2 Xtest)

/-! ### createModel — src/build/svm.js lines 133–147

Path resolution and training happen before the try block; the two
`writeFile` calls happen inside `try { ... } catch (e) { console.log(e); }`,
so a write failure is logged and the promise still resolves. The result is
the rejected/resolved outcome plus a flag recording whether the catch
block logged an error. -/

/-- Embedding of `createModel`'s control flow around persistence.
`pathsRes` is the (possibly throwing) result of `getFilePath()`;
`writeDescriptors`/`writeModel` model the two `writeFile` calls
(`none` = the write threw). -/
def createModel (pathsRes : Except (List Char) ModelPaths)
    (writeDescriptors : List Char → Option Unit)
    (writeModel : List Char → Option Unit) :
    Except (List Char) Unit × Bool :=
  match pathsRes with
  | .error e => (.error e, false)
  | .ok paths =>
    match writeDescriptors paths.descriptors with
    | none => (.ok (), true)
    | some _ =>
      match writeModel paths.model with
      | none => (.ok (), true)
      | some _ => (.ok (), false)

/-! ### detectAndParseMrz — src/unnamed/part_000 lines 9–32

The whole pipeline body sits inside `try { ... return formattedResult; }
catch (e) { console.log(e); }`, so any failure resolves the promise with
`undefined` (here `none`) instead of rethrowing. -/

/-- Embedding of `detectAndParseMrz`'s error handling: `pipeline` is the
outcome of the try-block body (load, getMrz, mrzOcr, parse, format). -/
def detectAndParseMrz {α : Type} (pipeline : Except (List Char) α) : Option α :=
  match pipeline with
  | .ok v => some v
  | .error _ => none

/-! ### Line grouping — groupRoisPerLine, src/build/lib/medianQuickSelect.js lines 39–69 -/

/-- A glyph region produced by segmentation. -/
structure Roi where
  minX : Int
  minY : Int
  width : Int
  height : Int
deriving DecidableEq, Repr

/-- The mutable line object `{ rois, y, x }`; `y`/`x` are set on every
assignment, immediately after creation, so they are total here. -/
structure TextLine where
  x : Int
  y : Int
  rois : List Roi
deriving DecidableEq, Repr

/-- JS `v || 0` for a number `v`: `0` (and `NaN`) are falsy. The source
tests `(line.y || 0)`. -/
def jsOrZero (v : Int) : Int := if v = 0 then 0 else v

/-- One step of the region-assignment loop: scan existing lines in
creation order, append the region to the first line whose anchor `y` is
within `shift`, refreshing that line's anchor; otherwise push a fresh
line at the end. -/
def placeRoi (shift : Int) (lines : List TextLine) (roi : Roi) : List TextLine :=
  match lines with
  | [] => [{ x := roi.minX, y := roi.minY, rois := [roi] }]
  | l :: rest =>
    if |jsOrZero l.y - roi.minY| ≤ shift then
      { x := roi.minX, y := roi.minY, rois := l.rois ++ [roi] } :: rest
    else
      l :: placeRoi shift rest roi

/-- Stable ascending sort by the line anchor `y`
(`lines.sort((a, b) => Number(a.y) - Number(b.y))`). -/
def sortLinesByY (lines : List TextLine) : List TextLine :=
  lines.mergeSort (fun a b => decide (a.y ≤ b.y))

/-- Embedding of `groupRoisPerLine(rois)`. The source also makes a copy
of `rois` sorted by `minX`, but the copy is made after `total` is summed
over the same elements and is never read again, so it has no effect on
the result. -/
def groupRoisPerLine (rois : List Roi) : List TextLine :=
  let total : Int := (rois.map (·.height)).sum
  let allowedShift : Int := round ((total : ℚ) / (rois.length : ℚ) / 2)
  let lines := rois.foldl (placeRoi allowedShift) []
  sortLinesByY lines

/-- Modelled from the claim's own words, for comparison with the source
embedding: global tolerance `round(mean(height) / 2)`, first matching
line in creation order with `|anchorY − y| ≤ allowedShift`, new line when
none matches, anchor updated to the just-added region, final stable sort
by anchor `y` ascending. -/
def placeRoiSpec (shift : Int) (lines : List TextLine) (roi : Roi) : List TextLine :=
  match lines with
  | [] => [{ x := roi.minX, y := roi.minY, rois := [roi] }]
  | l :: rest =>
    if |l.y - roi.minY| ≤ shift then
      { x := roi.minX, y := roi.minY, rois := l.rois ++ [roi] } :: rest
    else
      l :: placeRoiSpec shift rest roi

/-- Specification-side grouping (see `placeRoiSpec`). -/
def groupRoisPerLineSpec (rois : List Roi) : List TextLine :=
  let allowedShift : Int := round ((((rois.map (·.height)).sum : Int) : ℚ) / (rois.length : ℚ) / 2)
  sortLinesByY (rois.foldl (placeRoiSpec allowedShift) [])

/-! ### OCR orchestrator — mrzOcr, src/unnamed/part_002 lines 6–59

The image type, cropping, and the batched classifier are external, so
they are parameters. `getLinesFromImage`'s outputs other than `lines`
(mask, painted, averageSurface) pass through untouched and carry no
information for the claims, so they are not modelled. -/

/-- The per-glyph record pushed onto `rois` by `mrzOcr`. -/
structure CropRoi (α : Type) where
  image : α
  width : Int
  height : Int
  line : Nat
  column : Nat
  predicted : Option Char := none
deriving DecidableEq, Repr

/-- Line filtering and trimming at the head of `mrzOcr`: drop lines with
five or fewer regions, then keep only the last three lines
(`lines.slice(lines.length - 3, lines.length)`). -/
def keepMrzLines (lines : List TextLine) : List TextLine :=
  let filtered := lines.filter (fun l => 5 < l.rois.length)
  if 3 < filtered.length then filtered.drop (filtered.length - 3) else filtered

/-- The `count`-driven reassembly loop at the end of `mrzOcr`: the next
`line.rois.length` predicted characters form this line's text. -/
def buildLineText : List TextLine → List Char → List String
  | [], _ => []
  | l :: rest, predicted =>
    String.mk (predicted.take l.rois.length)
      :: buildLineText rest (predicted.drop l.rois.length)

/-- Embedding of `mrzOcr(image)` after `getLinesFromImage` has produced
`lines₀`. `crop image x y w h` models `image.crop({x, y, width, height})`;
`predictImages` is the single batched classifier call;
`charOf` models `String.fromCharCode`. Returns the per-line strings and
the annotated rois. -/
def mrzOcr {α : Type} (crop : α → Int → Int → Int → Int → α)
    (predictImages : List α → List Int) (charOf : Int → Char)
    (image : α) (lines₀ : List TextLine) :
    List String × List (CropRoi α) :=
  let lines := keepMrzLines lines₀
  let rois : List (CropRoi α) := lines.enum.flatMap (fun il =>
    il.2.rois.enum.map (fun jr =>
      { image := crop image jr.2.minX jr.2.minY jr.2.width jr.2.height
        width := jr.2.width
        height := jr.2.height
        line := il.1
        column := jr.1 }))
  let imagesToPredict := rois.map (·.image)
  let predicted := (predictImages imagesToPredict).map charOf
  let roisAnnotated := (rois.zip predicted).map (fun rp => { rp.1 with predicted := some rp.2 })
  (buildLineText lines predicted, roisAnnotated)

/-- The flat list of cropped glyph images, in line-major order, that
`mrzOcr` sends to the classifier in its single batched call. -/
def flatCrops {α : Type} (crop : α → Int → Int → Int → Int → α)
    (image : α) (lines : List TextLine) : List α :=
  lines.flatMap (fun l => l.rois.map (fun r => crop image r.minX r.minY r.width r.height))

/-- Number of regions in the first `i` retained lines: the offset of line
`i`'s predictions inside the batch. -/
def prefRois (lines : List TextLine) (i : Nat) : Nat :=
  ((lines.take i).map (·.rois.length)).sum

/-! ### Median quickselect — src/build/lib/medianQuickSelect.js lines 1–37

JS array indexing with an out-of-range (or negative) index yields
`undefined`; any `>` comparison involving `undefined` is `false`. Indices
are `Int` (they appear as `high = arr.length - 1`, `hh - 1`, …); reads go
through `getI`, comparisons through `jsGt`. The two inner scan loops are
structurally terminating (each step moves the cursor one place and stops
at the latest on an out-of-range read); the partition loop and the
outer do-while get an explicit fuel, which the termination theorem shows
is never exhausted. -/

/-- JS read `arr[i]` for an `Int` index. -/
def getI (a : List Int) (i : Int) : Option Int :=
  if 0 ≤ i then a[i.toNat]? else none

/-- JS `x > y` where either side may be `undefined`. -/
def jsGt : Option Int → Option Int → Bool
  | some x, some y => decide (y < x)
  | _, _ => false

/-- JS `[arr[x], arr[y]] = [arr[y], arr[x]]` for in-range indices; the
out-of-range case never occurs in any reachable trace and is modelled as
a no-op. -/
def lswap (a : List Int) (i j : Int) : List Int :=
  match getI a i, getI a j with
  | some x, some y => (a.set i.toNat y).set j.toNat x
  | _, _ => a

/-- One `if (arr[x] > arr[y]) swap(arr, x, y);` step. -/
def cmpSwap (a : List Int) (i j : Int) : List Int :=
  if jsGt (getI a i) (getI a j) then lswap a i j else a

/-- JS `~~((x + y) / 2)`: division truncated toward zero. -/
def calcMiddle (x y : Int) : Int := (x + y).tdiv 2

/-- The scan `do ll++; while (arr[low] > arr[ll]);` — returns the final
value of `ll`. -/
def scanUp (a : List Int) (low : Int) (ll : Int) : Int :=
  let l' := ll + 1
  if h : jsGt (getI a low) (getI a l') then scanUp a low l' else l'
termination_by a.length + 1 - (ll + 1).toNat
decreasing_by
  have hb : 0 ≤ ll + 1 ∧ (ll + 1).toNat < a.length := by
    by_contra hc
    have hnone : getI a (ll + 1) = none := by
      unfold getI
      split
      · exact List.getElem?_eq_none (by omega)
      · rfl
    rw [hnone] at h
    cases hx : getI a low <;> rw [hx] at h <;> simp [jsGt] at h
  omega

/-- The scan `do hh--; while (arr[hh] > arr[low]);` — returns the final
value of `hh`. -/
def scanDown (a : List Int) (low : Int) (hh : Int) : Int :=
  let h' := hh - 1
  if h : jsGt (getI a h') (getI a low) then scanDown a low h' else h'
termination_by (hh + 1).toNat
decreasing_by
  have hb : 0 ≤ hh - 1 := by
    by_contra hc
    have hnone : getI a (hh - 1) = none := by
      unfold getI
      split
      · exact absurd (by assumption) hc
      · rfl
    rw [hnone] at h
    cases hx : getI a low <;> rw [hx] at h <;> simp [jsGt] at h
  omega

/-- The partition loop `while (true) { scan ll; scan hh; if (hh < ll)
break; swap(arr, ll, hh); }`, with fuel. Returns the array and the final
cursor values. -/
def partLoopF : Nat → List Int → Int → Int → Int → Option (List Int × Int × Int)
  | 0, _, _, _, _ => none
  | fuel + 1, a, low, ll, hh =>
    let ll' := scanUp a low ll
    let hh' := scanDown a low hh
    if hh' < ll' then some (a, ll', hh')
    else partLoopF fuel (lswap a ll' hh') low ll' hh'

/-- Fuel budget for one partition: the window width, which bounds the
number of swap rounds. -/
def partFuel (high low : Int) : Nat := (high - (low + 1)).toNat

/-- The outer `do … while (true)` of `quickSelect`, with fuel. The inner
value is the JS return value (`none` would be `undefined`, possible only
for an empty array); the outer `none` means the fuel ran out. -/
def quickSelectGo : Nat → List Int → Int → Int → Int → Option (Option Int)
  | 0, _, _, _, _ => none
  | fuel + 1, arr, low, high, median =>
    if high ≤ low then some (getI arr median)
    else if high = low + 1 then
      some (getI (cmpSwap arr low high) median)
    else
      let middle := calcMiddle low high
      let a1 := cmpSwap arr middle high
      let a2 := cmpSwap a1 low high
      let a3 := cmpSwap a2 middle low
      let a4 := lswap a3 middle (low + 1)
      match partLoopF (partFuel high low + 1) a4 low (low + 1) high with
      | none => none
      | some (a5, ll, hh) =>
        let a6 := lswap a5 low hh
        let low' := if hh ≤ median then ll else low
        let high' := if median ≤ hh then hh - 1 else high
        quickSelectGo fuel a6 low' high' median

/-- Embedding of `quickSelect(arr)` including its initialisation
(`low = 0`, `high = arr.length - 1`, `median = calcMiddle(low, high)`),
with enough fuel for the whole run. -/
def quickSelectRun (arr : List Int) : Option (Option Int) :=
  quickSelectGo (arr.length + 1) arr 0 ((arr.length : Int) - 1)
    (calcMiddle 0 ((arr.length : Int) - 1))

/-- The value `quickSelect(arr)` returns (`none` = `undefined` or — ruled
out by the termination theorem — exhausted fuel). -/
def quickSelect (arr : List Int) : Option Int :=
  (quickSelectRun arr).join

/-- The full ascending sort the claims compare against. -/
def sortL (l : List Int) : List Int := l.insertionSort (· ≤ ·)

/-- Invariant of the outer quickselect loop: every element strictly left
of `low` is bounded by every element at position `low` or later, and
every element at a position up to `high` is bounded by every element
strictly right of `high`. -/
def Settled (a : List Int) (low high : Int) : Prop :=
  (∀ i j x y, i < low → low ≤ j → getI a i = some x → getI a j = some y → x ≤ y) ∧
  (∀ i j x y, i ≤ high → high < j → getI a i = some x → getI a j = some y → x ≤ y)

/-! ## Theorems -/

/-! ### Classifier mode selection and the precomputed-kernel invariant -/

/-- Claim C1: for every training set, when the labels contain exactly one
distinct value `train` configures one-class mode (type `ONE_CLASS`, `nu`
defaulting to `0.5`) and returns `oneClass = true`; with two or more
distinct label values it configures a C-support classifier (type `C_SVC`,
`gamma` defaulting to `1`, overridable by caller options) and returns
`oneClass = false`. The caller options are assumed not to override the
`type` field, which the defaults supply. -/
theorem train_mode_selection (letters : List TrainSample) (userOptions : UserSvmOptions)
    (hty : userOptions.type = none) :
    ((letters.map (·.label)).dedup.length = 1 →
      (train letters userOptions).oneClass = true ∧
      (train letters userOptions).svmOptions.type = SvmType.ONE_CLASS ∧
      (userOptions.nu = none →
        (train letters userOptions).svmOptions.nu = some (1/2 : ℚ))) ∧
    (2 ≤ (letters.map (·.label)).dedup.length →
      (train letters userOptions).oneClass = false ∧
      (train letters userOptions).svmOptions.type = SvmType.C_SVC ∧
      (userOptions.gamma = none →
        (train letters userOptions).svmOptions.gamma = some (1 : ℚ)) ∧
      (∀ g, userOptions.gamma = some g →
        (train letters userOptions).svmOptions.gamma = some g)) := by
  constructor
  · intro h1
    simp only [train, h1, if_pos, mergeOneClass, hty, Option.getD_none]
    refine ⟨by simp, by trivial, ?_⟩
    intro hnu
    simp [hnu, Option.orElse]
  · intro h2
    have hne : ¬ (letters.map (·.label)).dedup.length = 1 := by omega
    simp only [train, hne, if_false, mergeNormal, hty, Option.getD_none]
    refine ⟨by simp, by trivial, ?_, ?_⟩
    · intro hg
      simp [hg, Option.orElse]
    · intro g hg
      simp [hg, Option.orElse]

/-- Witness for `train_mode_selection` at concrete inputs: two distinct
labels select the C-support branch. -/
theorem train_mode_selection_witness :
    (train [⟨[], 65⟩, ⟨[], 66⟩, ⟨[], 65⟩] {}).oneClass = false ∧
    (train [⟨[], 65⟩, ⟨[], 66⟩, ⟨[], 65⟩] {}).svmOptions.type = SvmType.C_SVC := by
  have h := train_mode_selection [⟨[], 65⟩, ⟨[], 66⟩, ⟨[], 65⟩] {} rfl
  have h2 := h.2 (by decide)
  exact ⟨h2.1, h2.2.1⟩

/-- Claim C10: whatever `SVMOptions` the caller supplies — including an
attempted `kernel` override — the classifier configuration built by
`train` has kernel `PRECOMPUTED` in both branches, while `type`, `gamma`
and `nu` supplied by the caller do survive the merge. -/
theorem train_kernel_precomputed (letters : List TrainSample) (userOptions : UserSvmOptions) :
    (train letters userOptions).svmOptions.kernel = KernelType.PRECOMPUTED ∧
    (∀ t, userOptions.type = some t → (train letters userOptions).svmOptions.type = t) ∧
    (∀ g, userOptions.gamma = some g →
      (train letters userOptions).svmOptions.gamma = some g) ∧
    (∀ v, userOptions.nu = some v → (train letters userOptions).svmOptions.nu = some v) := by
  refine ⟨?_, ?_, ?_, ?_⟩ <;>
    simp only [train] <;>
    split <;>
    simp [mergeOneClass, mergeNormal, Option.orElse]
  all_goals intro x hx
  all_goals simp [hx]

/-- Witness for `train_kernel_precomputed`: a caller-supplied
`kernel: LINEAR` is still overwritten with `PRECOMPUTED`. -/
theorem train_kernel_precomputed_witness :
    (train [⟨[], 65⟩]
      { type := some SvmType.NU_SVC, kernel := some KernelType.LINEAR,
        gamma := some 2, nu := some 1, quiet := none }).svmOptions.kernel
      = KernelType.PRECOMPUTED ∧
    (train [⟨[], 65⟩]
      { type := some SvmType.NU_SVC, kernel := some KernelType.LINEAR,
        gamma := some 2, nu := some 1, quiet := none }).svmOptions.type
      = SvmType.NU_SVC := by
  have h := train_kernel_precomputed [⟨[], 65⟩]
    { type := some SvmType.NU_SVC, kernel := some KernelType.LINEAR,
      gamma := some 2, nu := some 1, quiet := none }
  exact ⟨h.1, h.2.1 _ rfl⟩

/-! ### Descriptor batch normalisation -/

theorem lem_foldl_max_init (l : List ℚ) (b : ℚ) : b ≤ l.foldl max b := by
  induction l generalizing b with
  | nil => simp
  | cons x xs ih => exact le_trans (le_max_left b x) (ih (max b x))

theorem lem_foldl_max_mem {l : List ℚ} {x : ℚ} (hx : x ∈ l) (b : ℚ) : x ≤ l.foldl max b := by
  induction l generalizing b with
  | nil => cases hx
  | cons y ys ih =>
    rcases List.mem_cons.mp hx with h | h
    · subst h
      exact le_trans (le_max_right b x) (lem_foldl_max_init ys _)
    · exact ih h _

theorem lem_foldl_max_self (l : List ℚ) (b : ℚ) : l.foldl max b ∈ b :: l := by
  induction l generalizing b with
  | nil => simp
  | cons x xs ih =>
    rw [List.foldl_cons]
    rcases List.mem_cons.mp (ih (max b x)) with h | h
    · rw [h]
      rcases max_choice b x with hc | hc <;> rw [hc] <;> simp
    · exact List.mem_cons_of_mem _ (List.mem_cons_of_mem _ h)

theorem lem_foldl_min_init (l : List ℚ) (b : ℚ) : l.foldl min b ≤ b := by
  induction l generalizing b with
  | nil => simp
  | cons x xs ih => exact le_trans (ih (min b x)) (min_le_left b x)

theorem lem_foldl_min_mem {l : List ℚ} {x : ℚ} (hx : x ∈ l) (b : ℚ) : l.foldl min b ≤ x := by
  induction l generalizing b with
  | nil => cases hx
  | cons y ys ih =>
    rcases List.mem_cons.mp hx with h | h
    · subst h
      exact le_trans (lem_foldl_min_init ys _) (min_le_right b x)
    · exact ih h _

theorem lem_foldl_min_self (l : List ℚ) (b : ℚ) : l.foldl min b ∈ b :: l := by
  induction l generalizing b with
  | nil => simp
  | cons x xs ih =>
    rw [List.foldl_cons]
    rcases List.mem_cons.mp (ih (min b x)) with h | h
    · rw [h]
      rcases min_choice b x with hc | hc <;> rw [hc] <;> simp
    · exact List.mem_cons_of_mem _ (List.mem_cons_of_mem _ h)

theorem lem_jsMax_ge {l : List ℚ} {x : ℚ} (hx : x ∈ l) : x ≤ jsMax l := by
  cases l with
  | nil => cases hx
  | cons y ys =>
    rcases List.mem_cons.mp hx with h | h
    · subst h
      exact lem_foldl_max_init ys x
    · exact lem_foldl_max_mem h y

theorem lem_jsMax_mem {l : List ℚ} (h : l ≠ []) : jsMax l ∈ l := by
  cases l with
  | nil => exact absurd rfl h
  | cons y ys => exact lem_foldl_max_self ys y

theorem lem_jsMin_le {l : List ℚ} {x : ℚ} (hx : x ∈ l) : jsMin l ≤ x := by
  cases l with
  | nil => cases hx
  | cons y ys =>
    rcases List.mem_cons.mp hx with h | h
    · subst h
      exact lem_foldl_min_init ys x
    · exact lem_foldl_min_mem h y

theorem lem_jsMin_mem {l : List ℚ} (h : l ≠ []) : jsMin l ∈ l := by
  cases l with
  | nil => exact absurd rfl h
  | cons y ys => exact lem_foldl_min_self ys y

theorem lem_zip_map_self {α β : Type} (E : α → β) (l : List α) :
    (l.map E).zip l = l.map (fun x => (E x, x)) := by
  induction l with
  | nil => rfl
  | cons x xs ih => simp [ih]

theorem lem_getDescriptors_eq {α : Type} (E : α → List ℚ) (H : α → ℚ) (images : List α) :
    getDescriptors E H images = images.map (fun img =>
      E img ++ [if jsMin (images.map H) ≠ jsMax (images.map H)
                then (H img - jsMin (images.map H)) /
                     (jsMax (images.map H) - jsMin (images.map H))
                else 1]) := by
  simp only [getDescriptors, lem_zip_map_self, List.map_map]
  rfl

/-- Claim C4: `getDescriptors` appends exactly one scalar to each HOG
vector — `(height − minHeight)/(maxHeight − minHeight)` over the batch
when the heights differ, else `1` — the appended scalar lies in `[0, 1]`,
all descriptors of one batch share one length, an all-equal-height batch
appends `1` everywhere, and the batch of heights `{10, 20, 30}` appends
`{0, 1/2, 1}`. -/
theorem descriptor_bonus {α : Type} (extractHOG : α → List ℚ) (height : α → ℚ)
    (images : List α) (L : Nat) (hne : images ≠ [])
    (hLen : ∀ img ∈ images, (extractHOG img).length = L) :
    (∀ i, (h : i < images.length) →
      (getDescriptors extractHOG height images)[i]? =
        some (extractHOG images[i] ++
          [if jsMin (images.map height) ≠ jsMax (images.map height)
           then (height images[i] - jsMin (images.map height)) /
                (jsMax (images.map height) - jsMin (images.map height))
           else 1])) ∧
    (∀ d ∈ getDescriptors extractHOG height images,
      d.length = L + 1 ∧ ∃ b, d.getLast? = some b ∧ 0 ≤ b ∧ b ≤ 1) ∧
    (∀ c : ℚ, (∀ img ∈ images, height img = c) →
      ∀ d ∈ getDescriptors extractHOG height images, d.getLast? = some 1) ∧
    (getDescriptors (fun _ : ℚ => []) id [10, 20, 30] = [[0], [1/2], [1]]) := by
  have hmapne : images.map height ≠ [] := by
    simpa using hne
  refine ⟨?_, ?_, ?_, by norm_num [lem_getDescriptors_eq, jsMin, jsMax]⟩
  · intro i h
    rw [lem_getDescriptors_eq, List.getElem?_map, List.getElem?_eq_getElem h]
    rfl
  · intro d hd
    rw [lem_getDescriptors_eq] at hd
    rcases List.mem_map.mp hd with ⟨img, himg, rfl⟩
    have hmem : height img ∈ images.map height := List.mem_map_of_mem _ himg
    have hmin := lem_jsMin_le hmem
    have hmax := lem_jsMax_ge hmem
    constructor
    · simp [hLen img himg]
    · by_cases hc : jsMin (images.map height) ≠ jsMax (images.map height)
      · have hlt : jsMin (images.map height) < jsMax (images.map height) :=
          lt_of_le_of_ne (le_trans hmin hmax) hc
        refine ⟨(height img - jsMin (images.map height)) /
                (jsMax (images.map height) - jsMin (images.map height)), ?_, ?_, ?_⟩
        · simp [hc]
        · exact div_nonneg (by linarith) (by linarith)
        · rw [div_le_one (by linarith)]
          linarith
      · exact ⟨1, by simp [hc], by norm_num, by norm_num⟩
  · intro c hc d hd
    have hminc : jsMin (images.map height) = c := by
      rcases List.mem_map.mp (lem_jsMin_mem hmapne) with ⟨img, himg, hv⟩
      rw [← hv, hc img himg]
    have hmaxc : jsMax (images.map height) = c := by
      rcases List.mem_map.mp (lem_jsMax_mem hmapne) with ⟨img, himg, hv⟩
      rw [← hv, hc img himg]
    rw [lem_getDescriptors_eq] at hd
    rcases List.mem_map.mp hd with ⟨img, _, rfl⟩
    simp [hminc, hmaxc]

/-- Witness for `descriptor_bonus` at a concrete three-image batch of
heights `10`, `20`, `30`. -/
theorem descriptor_bonus_witness :
    ([10, 20, 30] : List ℚ) ≠ [] ∧
    getDescriptors (fun _ : ℚ => []) id [10, 20, 30] = [[0], [1/2], [1]] :=
  ⟨by decide,
   (descriptor_bonus (fun _ : ℚ => []) id [10, 20, 30] 0 (by decide)
      (by intro img _; rfl)).2.2.2⟩

/-! ### Model path resolution -/

/-- Claim C6 counterexample: with no environment variables, no injected
paths and no existing candidate file, `getFilePath` fails — but its error
is the fixed string `MRZ model files not found in any expected
locations`, which does not mention the serverless candidate directory nor
the local `public/mrz-models` candidate, so the error does not enumerate
the attempted locations. -/
theorem getFilePath_error_names_no_paths :
    getFilePath none none none (fun _ => false) (s2l ("/app"))
      = .error (s2l ("MRZ model files not found in any expected locations")) ∧
    occursIn (s2l ("/var/task/public/mrz-models"))
      (s2l ("MRZ model files not found in any expected locations")) = false ∧
    occursIn (s2l ("public/mrz-models"))
      (s2l ("MRZ model files not found in any expected locations")) = false ∧
    occursIn (s2l ("/app"))
      (s2l ("MRZ model files not found in any expected locations")) = false := by
  refine ⟨rfl, ?_, ?_, ?_⟩ <;> decide

/-- Claim C6 as amended: resolution precedence is environment variables,
then the injected paths object, then the serverless `public` directory,
then the local working-directory `public` directory, first existing
candidate wins; when no candidate exists the error is a fixed message
that does not enumerate the attempted locations. -/
theorem getFilePath_precedence (envD envM : Option (List Char))
    (ext : Option ModelPathsObj) (fs : List Char → Bool) (cwd : List Char) :
    ((jsTruthyStr envD && jsTruthyStr envM) = true →
      getFilePath envD envM ext fs cwd = .ok ⟨envD.getD [], envM.getD []⟩) ∧
    ((jsTruthyStr envD && jsTruthyStr envM) = false →
      (jsTruthyStr (ext.bind (·.descriptors)) && jsTruthyStr (ext.bind (·.model))) = true →
      getFilePath envD envM ext fs cwd =
        .ok ⟨(ext.bind (·.descriptors)).getD [], (ext.bind (·.model)).getD []⟩) ∧
    ((jsTruthyStr envD && jsTruthyStr envM) = false →
      (jsTruthyStr (ext.bind (·.descriptors)) && jsTruthyStr (ext.bind (·.model))) = false →
      fs (pathJoin (s2l ("/var/task/public/mrz-models")) (s2l ("ESC-v2.svm.descriptors"))) = true →
      getFilePath envD envM ext fs cwd =
        .ok ⟨pathJoin (s2l ("/var/task/public/mrz-models")) (s2l ("ESC-v2.svm.descriptors")),
             pathJoin (s2l ("/var/task/public/mrz-models")) (s2l ("ESC-v2.svm.model"))⟩) ∧
    ((jsTruthyStr envD && jsTruthyStr envM) = false →
      (jsTruthyStr (ext.bind (·.descriptors)) && jsTruthyStr (ext.bind (·.model))) = false →
      fs (pathJoin (s2l ("/var/task/public/mrz-models")) (s2l ("ESC-v2.svm.descriptors"))) = false →
      fs (pathJoin (pathJoin cwd (s2l ("public/mrz-models"))) (s2l ("ESC-v2.svm.descriptors"))) = true →
      getFilePath envD envM ext fs cwd =
        .ok ⟨pathJoin (pathJoin cwd (s2l ("public/mrz-models"))) (s2l ("ESC-v2.svm.descriptors")),
             pathJoin (pathJoin cwd (s2l ("public/mrz-models"))) (s2l ("ESC-v2.svm.model"))⟩) ∧
    ((jsTruthyStr envD && jsTruthyStr envM) = false →
      (jsTruthyStr (ext.bind (·.descriptors)) && jsTruthyStr (ext.bind (·.model))) = false →
      fs (pathJoin (s2l ("/var/task/public/mrz-models")) (s2l ("ESC-v2.svm.descriptors"))) = false →
      fs (pathJoin (pathJoin cwd (s2l ("public/mrz-models"))) (s2l ("ESC-v2.svm.descriptors"))) = false →
      getFilePath envD envM ext fs cwd =
        .error (s2l ("MRZ model files not found in any expected locations"))) := by
  refine ⟨?_, ?_, ?_, ?_, ?_⟩
  · intro h1
    simp [getFilePath, h1]
  · intro h1 h2
    simp [getFilePath, h1, h2]
  · intro h1 h2 h3
    simp [getFilePath, h1, h2, h3]
  · intro h1 h2 h3 h4
    simp [getFilePath, h1, h2, h3, h4]
  · intro h1 h2 h3 h4
    simp [getFilePath, h1, h2, h3, h4]

/-- Witness for `getFilePath_precedence`: with both an environment
override and an injected configuration present (and a filesystem where
every candidate exists), the environment override wins. -/
theorem getFilePath_precedence_witness :
    getFilePath (some (s2l ("envd"))) (some (s2l ("envm")))
      (some ⟨some (s2l ("extd")), some (s2l ("extm"))⟩) (fun _ => true) (s2l ("/app"))
      = .ok ⟨s2l ("envd"), s2l ("envm")⟩ :=
  (getFilePath_precedence (some (s2l ("envd"))) (some (s2l ("envm")))
      (some ⟨some (s2l ("extd")), some (s2l ("extm"))⟩) (fun _ => true) (s2l ("/app"))).1
    (by decide)

/-! ### applyModel error handling -/

theorem lem_seenIn_loadErrMsg_descriptors (d m o : List Char) :
    seenIn d (loadErrMsg d m o) := by
  refine ⟨s2l ("Error loading model files. Tried paths:\n        - descriptors: "),
    s2l ("\n        - model: ") ++ m ++ s2l ("\n        Original error: ") ++ o, ?_⟩
  simp [loadErrMsg]

theorem lem_seenIn_loadErrMsg_model (d m o : List Char) :
    seenIn m (loadErrMsg d m o) := by
  refine ⟨s2l ("Error loading model files. Tried paths:\n        - descriptors: ")
      ++ d ++ s2l ("\n        - model: "),
    s2l ("\n        Original error: ") ++ o, ?_⟩
  simp [loadErrMsg]

/-- Claim C7: once the path pair has resolved, if either artifact read or
its decoding fails (`descriptors` file unreadable, BSON payload
undeserializable, model file unreadable, or classifier blob unloadable),
`applyModel` returns a single thrown error whose message contains both
attempted paths, and produces no predictions at all. -/
theorem applyModel_aborts_naming_both_paths {β κ γ : Type}
    (envD envM : Option (List Char)) (ext : Option ModelPathsObj)
    (fs : List Char → Bool) (cwd : List Char)
    (readFileBin : List Char → Option β)
    (bsonDeserialize : β → Option ((List (List ℚ)) × κ))
    (readFileText : List Char → Option (List Char))
    (svmLoad : List Char → Option γ)
    (predictFn : γ → List (List ℚ) → κ → List (List ℚ) → List Int)
    (eRead eDeser eText eLoad : List Char) (Xtest : List (List ℚ))
    (dPath mPath : List Char)
    (hres : getFilePath envD envM ext fs cwd = .ok ⟨dPath, mPath⟩)
    (hfail : readFileBin dPath = none ∨
      (∃ raw, readFileBin dPath = some raw ∧ bsonDeserialize raw = none) ∨
      readFileText mPath = none ∨
      (∃ mt, readFileText mPath = some mt ∧ svmLoad mt = none)) :
    ∃ msg, applyModel envD envM ext fs cwd readFileBin bsonDeserialize readFileText
        svmLoad predictFn eRead eDeser eText eLoad Xtest = .error msg ∧
      seenIn dPath msg ∧ seenIn mPath msg := by
  unfold applyModel
  rw [hres]
  dsimp only
  cases hr : readFileBin dPath with
  | none =>
    exact ⟨_, rfl, lem_seenIn_loadErrMsg_descriptors _ _ _,
      lem_seenIn_loadErrMsg_model _ _ _⟩
  | some raw =>
    dsimp only
    cases hd : bsonDeserialize raw with
    | none =>
      exact ⟨_, rfl, lem_seenIn_loadErrMsg_descriptors _ _ _,
        lem_seenIn_loadErrMsg_model _ _ _⟩
    | some td =>
      dsimp only
      cases ht : readFileText mPath with
      | none =>
        exact ⟨_, rfl, lem_seenIn_loadErrMsg_descriptors _ _ _,
          lem_seenIn_loadErrMsg_model _ _ _⟩
      | some mt =>
        dsimp only
        cases hl : svmLoad mt with
        | none =>
          exact ⟨_, rfl, lem_seenIn_loadErrMsg_descriptors _ _ _,
            lem_seenIn_loadErrMsg_model _ _ _⟩
        | some classifier =>
          exfalso
          rcases hfail with h | ⟨raw', hraw', hd'⟩ | h | ⟨mt', hmt', hl'⟩
          · rw [hr] at h
            exact Option.noConfusion h
          · rw [hr] at hraw'
            cases hraw'
            rw [hd] at hd'
            exact Option.noConfusion hd'
          · rw [ht] at h
            exact Option.noConfusion h
          · rw [ht] at hmt'
            cases hmt'
            rw [hl] at hl'
            exact Option.noConfusion hl'

/-- Witness for `applyModel_aborts_naming_both_paths`: an injected path
pair resolves, both reads fail, and the batch aborts with an error
naming both paths. -/
theorem applyModel_aborts_witness :
    ∃ msg, applyModel (β := Unit) (κ := Unit) (γ := Unit)
        none none (some ⟨some (s2l ("d1")), some (s2l ("m1"))⟩)
        (fun _ => false) (s2l ("/app"))
        (fun _ => none) (fun _ => none) (fun _ => none) (fun _ => none)
        (fun _ _ _ _ => []) (s2l ("ENOENT")) (s2l ("bad bson"))
        (s2l ("ENOENT")) (s2l ("bad model")) []
      = .error msg ∧ seenIn (s2l ("d1")) msg ∧ seenIn (s2l ("m1")) msg :=
  applyModel_aborts_naming_both_paths none none
    (some ⟨some (s2l ("d1")), some (s2l ("m1"))⟩) (fun _ => false) (s2l ("/app"))
    (fun _ => none) (fun _ => none) (fun _ => none) (fun _ => none)
    (fun _ _ _ _ => []) (s2l ("ENOENT")) (s2l ("bad bson")) (s2l ("ENOENT"))
    (s2l ("bad model")) [] (s2l ("d1")) (s2l ("m1")) rfl (Or.inl rfl)

/-! ### Error suppression in createModel and detectAndParseMrz -/

/-- Claim C8 counterexample: a failing persistence write inside
`createModel` does not surface — the call still resolves successfully
(merely logging, second component `true`) — and a failing pipeline inside
`detectAndParseMrz` does not surface either — the scan resolves with
`undefined` (`none`) instead of throwing. -/
theorem pipeline_failures_suppressed_counterexample :
    createModel (.ok ⟨s2l ("d1"), s2l ("m1")⟩) (fun _ => none) (fun _ => none)
      = (.ok (), true) ∧
    detectAndParseMrz (α := Unit) (.error (s2l ("boom"))) = none ∧
    ∀ e, createModel (.ok ⟨s2l ("d1"), s2l ("m1")⟩) (fun _ => none) (fun _ => none)
      ≠ (.error e, true) := by
  refine ⟨rfl, rfl, ?_⟩
  intro e h
  exact Except.noConfusion (congrArg Prod.fst h)

/-- Claim C8 as amended: failures of `getFilePath` before the try block
do propagate out of `createModel`, but failures of either persistence
write are caught and logged and `createModel` resolves normally; any
failure inside `detectAndParseMrz`'s try block is caught and logged and
the scan resolves with `undefined` rather than throwing. -/
theorem pipeline_failure_suppression (paths : ModelPaths)
    (wD wM : List Char → Option Unit) {γ : Type} (e : List Char)
    (pres : Except (List Char) γ) :
    (createModel (.error e) wD wM = (.error e, false)) ∧
    (wD paths.descriptors = none →
      createModel (.ok paths) wD wM = (.ok (), true)) ∧
    (∀ r, wD paths.descriptors = some r → wM paths.model = none →
      createModel (.ok paths) wD wM = (.ok (), true)) ∧
    (∀ err, pres = .error err → detectAndParseMrz pres = none) ∧
    (∀ v, pres = .ok v → detectAndParseMrz pres = some v) := by
  refine ⟨rfl, ?_, ?_, ?_, ?_⟩
  · intro h
    simp [createModel, h]
  · intro r h1 h2
    simp [createModel, h1, h2]
  · intro err h
    simp [detectAndParseMrz, h]
  · intro v h
    simp [detectAndParseMrz, h]

/-- Witness for `pipeline_failure_suppression` at concrete inputs. -/
theorem pipeline_failure_suppression_witness :
    createModel (.ok ⟨s2l ("dw"), s2l ("mw")⟩) (fun _ => none) (fun _ => some ())
      = (.ok (), true) ∧
    detectAndParseMrz (α := Nat) (.error (s2l ("crash"))) = none :=
  ⟨(pipeline_failure_suppression ⟨s2l ("dw"), s2l ("mw")⟩ (fun _ => none)
      (fun _ => some ()) (s2l ("x")) (.ok (0 : Nat))).2.1 rfl,
   (pipeline_failure_suppression ⟨s2l ("dw"), s2l ("mw")⟩ (fun _ => none)
      (fun _ => some ()) (s2l ("crash")) (.error (s2l ("crash")) : Except (List Char) Nat)).2.2.2.1
     (s2l ("crash")) rfl⟩

/-! ### Line grouping -/

theorem lem_jsOrZero_eq (v : Int) : jsOrZero v = v := by
  by_cases h : v = 0 <;> simp [jsOrZero, h]

theorem lem_placeRoi_eq (shift : Int) (roi : Roi) :
    ∀ lines, placeRoi shift lines roi = placeRoiSpec shift lines roi := by
  intro lines
  induction lines with
  | nil => rfl
  | cons l rest ih =>
    simp only [placeRoi, placeRoiSpec, lem_jsOrZero_eq, ih]

/-- Claim C3: for every non-empty region list, `groupRoisPerLine`
computes the single global tolerance `round(mean(height) / 2)`, assigns
each region in input order to the first line whose anchor `y` is within
the tolerance (a difference of exactly the tolerance joins, one more
starts a new line, both encoded by the `≤` test), updates the matched
line's anchor to the just-added region, and returns the lines sorted by
anchor `y` ascending — i.e. it coincides with the procedure transcribed
from the specification text. -/
theorem groupRoisPerLine_matches_spec (rois : List Roi) (hne : rois ≠ []) :
    groupRoisPerLine rois = groupRoisPerLineSpec rois := by
  have hfun : placeRoi = placeRoiSpec := by
    funext shift lines roi
    exact lem_placeRoi_eq shift roi lines
  simp only [groupRoisPerLine, groupRoisPerLineSpec, hfun]

/-- Witness for `groupRoisPerLine_matches_spec` on the specification's
own example layout (two rows of regions of height 20 at `y = 10` and
`y = 60`). -/
theorem groupRoisPerLine_matches_spec_witness :
    groupRoisPerLine [⟨0, 10, 5, 20⟩, ⟨6, 10, 5, 20⟩, ⟨0, 60, 5, 20⟩,
        ⟨6, 60, 5, 20⟩, ⟨12, 60, 5, 20⟩]
      = groupRoisPerLineSpec [⟨0, 10, 5, 20⟩, ⟨6, 10, 5, 20⟩, ⟨0, 60, 5, 20⟩,
        ⟨6, 60, 5, 20⟩, ⟨12, 60, 5, 20⟩] :=
  groupRoisPerLine_matches_spec _ (by decide)

/-! ### OCR orchestration -/

theorem lem_map_enumFrom {α β : Type} (g : α → β) :
    ∀ (n : Nat) (l : List α), (l.enumFrom n).map (fun p => g p.2) = l.map g := by
  intro n l
  induction l generalizing n with
  | nil => rfl
  | cons x xs ih => simp [List.enumFrom, ih]

theorem lem_flatMap_enumFrom {α β : Type} (g : α → List β) :
    ∀ (n : Nat) (l : List α), (l.enumFrom n).flatMap (fun p => g p.2) = l.flatMap g := by
  intro n l
  induction l generalizing n with
  | nil => rfl
  | cons x xs ih => simp [List.enumFrom, ih]

theorem lem_rois_images {α : Type} (crop : α → Int → Int → Int → Int → α)
    (image : α) (lines : List TextLine) :
    ((lines.enum.flatMap (fun il =>
      il.2.rois.enum.map (fun jr =>
        ({ image := crop image jr.2.minX jr.2.minY jr.2.width jr.2.height
           width := jr.2.width
           height := jr.2.height
           line := il.1
           column := jr.1 } : CropRoi α)))).map (·.image))
      = flatCrops crop image lines := by
  rw [List.map_flatMap]
  have key : ∀ (n : Nat) (ls : List TextLine),
      ((ls.enumFrom n).flatMap (fun il =>
        List.map (fun r : CropRoi α => r.image) (il.2.rois.enum.map (fun jr =>
          ({ image := crop image jr.2.minX jr.2.minY jr.2.width jr.2.height
             width := jr.2.width
             height := jr.2.height
             line := il.1
             column := jr.1 } : CropRoi α)))))
        = flatCrops crop image ls := by
    intro n ls
    induction ls generalizing n with
    | nil => rfl
    | cons x xs ih =>
      simp only [List.enumFrom, List.flatMap_cons, flatCrops] at *
      rw [ih]
      congr 1
      rw [List.map_map]
      exact lem_map_enumFrom (fun r => crop image r.minX r.minY r.width r.height) 0 x.rois
  exact key 0 lines

theorem lem_buildLineText_length :
    ∀ (ls : List TextLine) (preds : List Char), (buildLineText ls preds).length = ls.length := by
  intro ls
  induction ls with
  | nil => intro preds; rfl
  | cons l rest ih => intro preds; simp [buildLineText, ih]

theorem lem_prefRois_succ (l : TextLine) (ls : List TextLine) (i : Nat) :
    prefRois (l :: ls) (i + 1) = l.rois.length + prefRois ls i := by
  simp [prefRois, List.take_succ_cons]

theorem lem_buildLineText_getElem :
    ∀ (ls : List TextLine) (preds : List Char) (i : Nat) (h : i < ls.length),
      (buildLineText ls preds)[i]? =
        some (String.mk ((preds.drop (prefRois ls i)).take (ls[i].rois.length))) := by
  intro ls
  induction ls with
  | nil =>
    intro preds i h
    exact absurd h (by simp)
  | cons l rest ih =>
    intro preds i h
    cases i with
    | zero => simp [buildLineText, prefRois]
    | succ j =>
      have hj : j < rest.length := by simpa using h
      simp only [buildLineText, List.getElem?_cons_succ, ih _ j hj,
        lem_prefRois_succ, List.drop_drop, List.getElem_cons_succ]

theorem lem_prefRois_le :
    ∀ (ls : List TextLine) (i : Nat), (h : i < ls.length) →
      prefRois ls i + ls[i].rois.length ≤ (ls.map (·.rois.length)).sum := by
  intro ls
  induction ls with
  | nil =>
    intro i h
    exact absurd h (by simp)
  | cons l rest ih =>
    intro i h
    cases i with
    | zero =>
      simp only [prefRois, List.take_zero, List.map_nil, List.sum_nil,
        List.getElem_cons_zero, List.map_cons, List.sum_cons, Nat.zero_add]
      omega
    | succ j =>
      have hj : j < rest.length := by simpa using h
      have := ih j hj
      simp only [lem_prefRois_succ, List.getElem_cons_succ, List.map_cons, List.sum_cons]
      omega

theorem lem_flatCrops_length {α : Type} (crop : α → Int → Int → Int → Int → α)
    (image : α) (lines : List TextLine) :
    (flatCrops crop image lines).length = (lines.map (·.rois.length)).sum := by
  simp [flatCrops, List.length_flatMap, Function.comp_def, List.length_map]

/-- Claim C5: the OCR orchestrator discards every line with five or fewer
regions, keeps only the last three remaining lines, classifies all
retained crops in one batched prediction call (assumed order-preserving:
one output per input, positionally), and returns one string per retained
line, the `i`-th string being the in-order concatenation of the predicted
characters of the `i`-th line's regions — so its length equals that
line's region count. -/
theorem mrzOcr_orchestration {α : Type} (crop : α → Int → Int → Int → Int → α)
    (predictImages : List α → List Int) (charOf : Int → Char) (image : α)
    (lines₀ : List TextLine)
    (hp : ∀ imgs, (predictImages imgs).length = imgs.length) :
    (∀ l ∈ keepMrzLines lines₀, 5 < l.rois.length) ∧
    (keepMrzLines lines₀).length
      = min (lines₀.filter (fun l => 5 < l.rois.length)).length 3 ∧
    (∃ pre, pre ++ keepMrzLines lines₀
      = lines₀.filter (fun l => 5 < l.rois.length)) ∧
    (mrzOcr crop predictImages charOf image lines₀).1.length
      = (keepMrzLines lines₀).length ∧
    (∀ i, (h : i < (keepMrzLines lines₀).length) →
      ∃ s, (mrzOcr crop predictImages charOf image lines₀).1[i]? = some s ∧
        s = String.mk ((((predictImages
              (flatCrops crop image (keepMrzLines lines₀))).map charOf).drop
            (prefRois (keepMrzLines lines₀) i)).take
            ((keepMrzLines lines₀)[i].rois.length)) ∧
        s.length = (keepMrzLines lines₀)[i].rois.length) := by
  have hocr : (mrzOcr crop predictImages charOf image lines₀).1
      = buildLineText (keepMrzLines lines₀)
          ((predictImages (flatCrops crop image (keepMrzLines lines₀))).map charOf) := by
    simp only [mrzOcr, lem_rois_images]
  refine ⟨?_, ?_, ?_, ?_, ?_⟩
  · intro l hl
    simp only [keepMrzLines] at hl
    split at hl
    · have := List.of_mem_filter (List.mem_of_mem_drop hl)
      simpa using this
    · have := List.of_mem_filter hl
      simpa using this
  · simp only [keepMrzLines]
    split <;> rename_i hcase <;> simp [List.length_drop] <;> omega
  · simp only [keepMrzLines]
    split
    · exact ⟨_, List.take_append_drop _ _⟩
    · exact ⟨[], rfl⟩
  · rw [hocr, lem_buildLineText_length]
  · intro i h
    have hlen : ((predictImages (flatCrops crop image (keepMrzLines lines₀))).map
        charOf).length = ((keepMrzLines lines₀).map (·.rois.length)).sum := by
      rw [List.length_map, hp, lem_flatCrops_length]
    refine ⟨_, by rw [hocr]; exact lem_buildLineText_getElem _ _ i h, rfl, ?_⟩
    have hbound := lem_prefRois_le (keepMrzLines lines₀) i h
    rw [String.length_mk, List.length_take, List.length_drop, hlen]
    omega

/-- Witness for `mrzOcr_orchestration`: one retained line of six regions,
a length-preserving batch classifier. -/
theorem mrzOcr_orchestration_witness :
    (∀ l ∈ keepMrzLines [⟨0, 0, List.replicate 6 ⟨0, 0, 1, 1⟩⟩], 5 < l.rois.length) ∧
    (mrzOcr (fun img _ _ _ _ => img) (fun l => l.map (fun _ => 65))
        (fun n => Char.ofNat n.toNat) (0 : Int)
        [⟨0, 0, List.replicate 6 ⟨0, 0, 1, 1⟩⟩]).1.length
      = (keepMrzLines [⟨0, 0, List.replicate 6 ⟨0, 0, 1, 1⟩⟩]).length := by
  have h := mrzOcr_orchestration (fun img _ _ _ _ => img)
    (fun l => l.map (fun _ => (65 : Int))) (fun n => Char.ofNat n.toNat) (0 : Int)
    [⟨0, 0, List.replicate 6 ⟨0, 0, 1, 1⟩⟩] (by intro imgs; simp)
  exact ⟨h.1, h.2.2.2.1⟩

/-! ### Quickselect: basic access lemmas -/

theorem lem_getI_bounds {a : List Int} {i : Int} {v : Int} (h : getI a i = some v) :
    0 ≤ i ∧ i < (a.length : Int) := by
  unfold getI at h
  split at h
  · rename_i h0
    rcases List.getElem?_eq_some.mp h with ⟨hlt, _⟩
    exact ⟨h0, by omega⟩
  · exact Option.noConfusion h

theorem lem_getI_isSome {a : List Int} {i : Int} (h0 : 0 ≤ i)
    (h1 : i < (a.length : Int)) : ∃ v, getI a i = some v := by
  unfold getI
  rw [if_pos h0]
  have : i.toNat < a.length := by omega
  exact ⟨a[i.toNat], List.getElem?_eq_getElem this⟩

theorem lem_getI_neg {a : List Int} {i : Int} (h : i < 0) : getI a i = none := by
  unfold getI
  rw [if_neg (by omega)]

theorem lem_getI_congr {a b : List Int} {i : Int} (h : ∀ n : Nat, a[n]? = b[n]?) :
    getI a i = getI b i := by
  unfold getI
  split
  · exact h i.toNat
  · rfl

theorem lem_jsGt_none_right (x : Option Int) : jsGt x none = false := by
  cases x <;> rfl

theorem lem_jsGt_none_left (y : Option Int) : jsGt none y = false := by
  cases y <;> rfl

theorem lem_jsGt_some_iff {x y : Int} : jsGt (some x) (some y) = true ↔ y < x := by
  simp [jsGt]

theorem lem_jsGt_true {p q : Option Int} (h : jsGt p q = true) :
    ∃ x y, p = some x ∧ q = some y ∧ y < x := by
  cases p with
  | none => rw [lem_jsGt_none_left] at h; exact Bool.noConfusion h
  | some x =>
    cases q with
    | none => rw [lem_jsGt_none_right] at h; exact Bool.noConfusion h
    | some y => exact ⟨x, y, rfl, rfl, lem_jsGt_some_iff.mp h⟩

theorem lem_lswap_length (a : List Int) (i j : Int) : (lswap a i j).length = a.length := by
  unfold lswap
  split <;> simp

theorem lem_getI_lswap {a : List Int} {i j : Int} {x y : Int}
    (hi : getI a i = some x) (hj : getI a j = some y) (k : Int) :
    getI (lswap a i j) k =
      if k = i then some y else if k = j then some x else getI a k := by
  have hib := lem_getI_bounds hi
  have hjb := lem_getI_bounds hj
  have hxv : a[i.toNat]? = some x := by
    unfold getI at hi
    rwa [if_pos hib.1] at hi
  have hyv : a[j.toNat]? = some y := by
    unfold getI at hj
    rwa [if_pos hjb.1] at hj
  have hilen : i.toNat < a.length := by omega
  have hjlen : j.toNat < a.length := by omega
  unfold lswap
  rw [hi, hj]
  dsimp only
  by_cases hk0 : 0 ≤ k
  · unfold getI
    rw [if_pos hk0, if_pos hk0]
    rw [List.getElem?_set, List.getElem?_set, List.length_set]
    split_ifs <;>
      first
        | rfl
        | (exfalso; omega)
        | (have hij : i.toNat = j.toNat := by omega
           rw [hij] at hxv
           rw [hxv] at hyv
           exact hyv)
  · rw [lem_getI_neg (by omega), if_neg (by omega), if_neg (by omega),
      lem_getI_neg (by omega)]

theorem lem_lswap_perm {a : List Int} {i j : Int} {x y : Int}
    (hi : getI a i = some x) (hj : getI a j = some y) :
    List.Perm (lswap a i j) a := by
  have hib := lem_getI_bounds hi
  have hjb := lem_getI_bounds hj
  have hilen : i.toNat < a.length := by omega
  have hjlen : j.toNat < a.length := by omega
  have hxv : a[i.toNat] = x := by
    unfold getI at hi
    rw [if_pos hib.1] at hi
    obtain ⟨h', e⟩ := List.getElem?_eq_some.mp hi
    exact e
  have hyv : a[j.toNat] = y := by
    unfold getI at hj
    rw [if_pos hjb.1] at hj
    obtain ⟨h', e⟩ := List.getElem?_eq_some.mp hj
    exact e
  rw [List.perm_iff_count]
  intro c
  unfold lswap
  rw [hi, hj]
  dsimp only
  have hjlen' : j.toNat < (a.set i.toNat y).length := by simpa using hjlen
  rw [List.count_set x c (a.set i.toNat y) j.toNat hjlen',
    List.count_set y c a i.toNat hilen]
  have hsetnj : (a.set i.toNat y)[j.toNat] = y := by
    rw [List.getElem_set]
    split
    · rfl
    · exact hyv
  rw [hsetnj, hxv]
  have hxmem : x ∈ a := hxv ▸ List.getElem_mem hilen
  have hA : (if (x == c) = true then 1 else 0) ≤ List.count c a := by
    by_cases hxc : x = c
    · have h1 : 1 ≤ List.count c a := List.one_le_count_iff.mpr (hxc ▸ hxmem)
      simpa [hxc] using h1
    · simp [hxc]
  set A := (if (x == c) = true then 1 else 0) with hA_def
  set B := (if (y == c) = true then 1 else 0) with hB_def
  omega

theorem lem_cmpSwap_length (a : List Int) (i j : Int) :
    (cmpSwap a i j).length = a.length := by
  unfold cmpSwap
  split
  · exact lem_lswap_length a i j
  · rfl

theorem lem_cmpSwap_perm (a : List Int) (i j : Int) : List.Perm (cmpSwap a i j) a := by
  unfold cmpSwap
  split
  · rename_i h
    rcases lem_jsGt_true h with ⟨x, y, hx, hy, -⟩
    exact lem_lswap_perm hx hy
  · exact List.Perm.refl a

theorem lem_cmpSwap_post {a : List Int} {i j : Int} {xi xj : Int}
    (hi : getI a i = some xi) (hj : getI a j = some xj) (hij : i ≠ j) :
    ∃ x y, getI (cmpSwap a i j) i = some x ∧ getI (cmpSwap a i j) j = some y ∧
      x ≤ y ∧ ((x = xi ∧ y = xj) ∨ (x = xj ∧ y = xi)) := by
  unfold cmpSwap
  rw [hi, hj]
  by_cases h : jsGt (some xi) (some xj) = true
  · rw [if_pos h]
    have hlt : xj < xi := lem_jsGt_some_iff.mp h
    refine ⟨xj, xi, ?_, ?_, le_of_lt hlt, Or.inr ⟨rfl, rfl⟩⟩
    · rw [lem_getI_lswap hi hj, if_pos rfl]
    · rw [lem_getI_lswap hi hj, if_neg (fun hc => hij hc.symm), if_pos rfl]
  · rw [if_neg h]
    have hle : xi ≤ xj := by
      by_contra hc
      exact h (lem_jsGt_some_iff.mpr (by omega))
    exact ⟨xi, xj, hi, hj, hle, Or.inl ⟨rfl, rfl⟩⟩

theorem lem_cmpSwap_frame {a : List Int} {i j : Int} (k : Int)
    (hki : k ≠ i) (hkj : k ≠ j) : getI (cmpSwap a i j) k = getI a k := by
  unfold cmpSwap
  split
  · rename_i h
    rcases lem_jsGt_true h with ⟨x, y, hx, hy, -⟩
    rw [lem_getI_lswap hx hy, if_neg hki, if_neg hkj]
  · rfl

/-! ### Quickselect: scan-cursor lemmas -/

theorem lem_scanUp_gt (a : List Int) (low : Int) : ∀ ll, ll < scanUp a low ll := by
  refine scanUp.induct a low (fun ll => ll < scanUp a low ll) ?_ ?_
  · intro x l' hgt ih
    have hl : l' = x + 1 := rfl
    rw [hl] at hgt ih
    rw [scanUp.eq_1]
    simp only [dif_pos hgt]
    omega
  · intro x l' hgt
    have hl : l' = x + 1 := rfl
    rw [hl] at hgt
    rw [scanUp.eq_1]
    simp only [dif_neg hgt]
    omega

theorem lem_scanDown_lt (a : List Int) (low : Int) : ∀ hh, scanDown a low hh < hh := by
  refine scanDown.induct a low (fun hh => scanDown a low hh < hh) ?_ ?_
  · intro x h' hgt ih
    have hl : h' = x - 1 := rfl
    rw [hl] at hgt ih
    rw [scanDown.eq_1]
    simp only [dif_pos hgt]
    omega
  · intro x h' hgt
    have hl : h' = x - 1 := rfl
    rw [hl] at hgt
    rw [scanDown.eq_1]
    simp only [dif_neg hgt]
    omega

theorem lem_scanUp_spec (a : List Int) (low : Int) {pv : Int}
    (hpv : getI a low = some pv) :
    ∀ ll, (∀ k, ll < k → k < scanUp a low ll → ∃ v, getI a k = some v ∧ v < pv) ∧
      jsGt (getI a low) (getI a (scanUp a low ll)) = false := by
  refine scanUp.induct a low (fun ll =>
    (∀ k, ll < k → k < scanUp a low ll → ∃ v, getI a k = some v ∧ v < pv) ∧
      jsGt (getI a low) (getI a (scanUp a low ll)) = false) ?_ ?_
  · intro x l' hgt ih
    have hl : l' = x + 1 := rfl
    rw [hl] at hgt ih
    have hstep : scanUp a low x = scanUp a low (x + 1) := by
      rw [scanUp.eq_1]
      simp only [dif_pos hgt]
    rcases lem_jsGt_true hgt with ⟨p', v, hp', hv, hlt⟩
    have hpp : p' = pv := by
      rw [hpv] at hp'
      exact (Option.some.inj hp').symm
    subst hpp
    constructor
    · intro k hk1 hk2
      rw [hstep] at hk2
      by_cases hkx : k = x + 1
      · subst hkx
        exact ⟨v, hv, hlt⟩
      · exact (ih.1) k (by omega) hk2
    · rw [hstep]
      exact ih.2
  · intro x l' hgt
    have hl : l' = x + 1 := rfl
    rw [hl] at hgt
    have hstep : scanUp a low x = x + 1 := by
      rw [scanUp.eq_1]
      simp only [dif_neg hgt]
    constructor
    · intro k hk1 hk2
      rw [hstep] at hk2
      omega
    · rw [hstep]
      exact Bool.not_eq_true _ ▸ (by simpa using hgt)

theorem lem_scanDown_spec (a : List Int) (low : Int) {pv : Int}
    (hpv : getI a low = some pv) :
    ∀ hh, (∀ k, scanDown a low hh < k → k < hh → ∃ v, getI a k = some v ∧ pv < v) ∧
      jsGt (getI a (scanDown a low hh)) (getI a low) = false := by
  refine scanDown.induct a low (fun hh =>
    (∀ k, scanDown a low hh < k → k < hh → ∃ v, getI a k = some v ∧ pv < v) ∧
      jsGt (getI a (scanDown a low hh)) (getI a low) = false) ?_ ?_
  · intro x h' hgt ih
    have hl : h' = x - 1 := rfl
    rw [hl] at hgt ih
    have hstep : scanDown a low x = scanDown a low (x - 1) := by
      rw [scanDown.eq_1]
      simp only [dif_pos hgt]
    rcases lem_jsGt_true hgt with ⟨v, p', hv, hp', hlt⟩
    have hpp : p' = pv := by
      rw [hpv] at hp'
      exact (Option.some.inj hp').symm
    subst hpp
    constructor
    · intro k hk1 hk2
      rw [hstep] at hk1
      by_cases hkx : k = x - 1
      · subst hkx
        exact ⟨v, hv, hlt⟩
      · exact (ih.1) k hk1 (by omega)
    · rw [hstep]
      exact ih.2
  · intro x h' hgt
    have hl : h' = x - 1 := rfl
    rw [hl] at hgt
    have hstep : scanDown a low x = x - 1 := by
      rw [scanDown.eq_1]
      simp only [dif_neg hgt]
    constructor
    · intro k hk1 hk2
      rw [hstep] at hk1
      omega
    · rw [hstep]
      exact Bool.not_eq_true _ ▸ (by simpa using hgt)

theorem lem_scanUp_stop (a : List Int) (low : Int) {pv : Int}
    (hpv : getI a low = some pv) (ll : Int) :
    getI a (scanUp a low ll) = none ∨
      ∃ v, getI a (scanUp a low ll) = some v ∧ pv ≤ v := by
  have h := (lem_scanUp_spec a low hpv ll).2
  rw [hpv] at h
  cases hr : getI a (scanUp a low ll) with
  | none => exact Or.inl rfl
  | some v =>
    rw [hr] at h
    refine Or.inr ⟨v, rfl, ?_⟩
    have : ¬ v < pv := by
      intro hc
      rw [lem_jsGt_some_iff.mpr hc] at h
      exact Bool.noConfusion h
    omega

theorem lem_scanDown_stop (a : List Int) (low : Int) {pv : Int}
    (hpv : getI a low = some pv) (hh : Int) :
    getI a (scanDown a low hh) = none ∨
      ∃ v, getI a (scanDown a low hh) = some v ∧ v ≤ pv := by
  have h := (lem_scanDown_spec a low hpv hh).2
  rw [hpv] at h
  cases hr : getI a (scanDown a low hh) with
  | none => exact Or.inl rfl
  | some v =>
    rw [hr] at h
    refine Or.inr ⟨v, rfl, ?_⟩
    have : ¬ pv < v := by
      intro hc
      rw [lem_jsGt_some_iff.mpr hc] at h
      exact Bool.noConfusion h
    omega

/-! ### Quickselect: partition loop -/

theorem lem_partLoop_total :
    ∀ (fuel : Nat) (a : List Int) (low ll hh : Int), (hh - ll).toNat < fuel →
      ∃ a' llf hhf, partLoopF fuel a low ll hh = some (a', llf, hhf) ∧
        ll < llf ∧ hhf < hh := by
  intro fuel
  induction fuel with
  | zero =>
    intro a low ll hh hf
    omega
  | succ n ih =>
    intro a low ll hh hf
    have hup := lem_scanUp_gt a low ll
    have hdn := lem_scanDown_lt a low hh
    by_cases hc : scanDown a low hh < scanUp a low ll
    · refine ⟨a, scanUp a low ll, scanDown a low hh, ?_, hup, hdn⟩
      simp only [partLoopF]
      rw [if_pos hc]
    · rcases ih (lswap a (scanUp a low ll) (scanDown a low hh)) low
        (scanUp a low ll) (scanDown a low hh) (by omega) with
        ⟨a', llf, hhf, heq, h1, h2⟩
      refine ⟨a', llf, hhf, ?_, by omega, by omega⟩
      simp only [partLoopF]
      rw [if_neg hc]
      exact heq

theorem lem_partLoop_spec :
    ∀ (fuel : Nat) (a : List Int) (low ll hh high pv : Int),
      getI a low = some pv →
      0 ≤ low →
      low + 1 ≤ ll → ll ≤ hh → hh ≤ high → ll < high → low + 1 < hh →
      high < (a.length : Int) →
      (∀ k, low + 1 ≤ k → k ≤ ll → ∃ v, getI a k = some v ∧ v ≤ pv) →
      (∀ k, hh ≤ k → k ≤ high → ∃ v, getI a k = some v ∧ pv ≤ v) →
      (hh - ll).toNat < fuel →
      ∃ a' llf hhf, partLoopF fuel a low ll hh = some (a', llf, hhf) ∧
        a'.length = a.length ∧
        List.Perm a' a ∧
        (∀ k, k ≤ low + 1 ∨ high ≤ k → getI a' k = getI a k) ∧
        ll < llf ∧ hhf < hh ∧ hhf < llf ∧ low + 1 ≤ hhf ∧ llf ≤ high ∧
        (∀ k, low + 1 ≤ k → k ≤ llf - 1 → ∃ v, getI a' k = some v ∧ v ≤ pv) ∧
        (∀ k, hhf < k → k ≤ high → ∃ v, getI a' k = some v ∧ pv ≤ v) := by
  intro fuel
  induction fuel with
  | zero =>
    intro a low ll hh high pv hpv h0 hll hllhh hhhigh hllhigh hlowhh hhigh Iup Idn hfuel
    omega
  | succ n ih =>
    intro a low ll hh high pv hpv h0 hll hllhh hhhigh hllhigh hlowhh hhigh Iup Idn hfuel
    obtain ⟨ll', hll'd⟩ : ∃ x, scanUp a low ll = x := ⟨_, rfl⟩
    obtain ⟨hh', hhh'd⟩ : ∃ x, scanDown a low hh = x := ⟨_, rfl⟩
    have hllt : ll < ll' := hll'd ▸ lem_scanUp_gt a low ll
    have hhlt : hh' < hh := hhh'd ▸ lem_scanDown_lt a low hh
    have hupspec := (lem_scanUp_spec a low hpv ll).1
    have hdnspec := (lem_scanDown_spec a low hpv hh).1
    rw [hll'd] at hupspec
    rw [hhh'd] at hdnspec
    have hllhigh' : ll' ≤ high := by
      by_contra hc
      obtain ⟨vh, hvh, hpvvh⟩ := Idn high hhhigh (le_refl high)
      obtain ⟨v, hv, hvlt⟩ := hupspec high (by omega) (by omega)
      rw [hvh] at hv
      have := Option.some.inj hv
      omega
    have hlow1hh' : low + 1 ≤ hh' := by
      by_contra hc
      obtain ⟨v1, hv1, hv1le⟩ := Iup (low + 1) (le_refl _) (by omega)
      obtain ⟨v, hv, hvgt⟩ := hdnspec (low + 1) (by omega) (by omega)
      rw [hv1] at hv
      have := Option.some.inj hv
      omega
    by_cases hcross : hh' < ll'
    · refine ⟨a, ll', hh', ?_, rfl, List.Perm.refl a, fun k _ => rfl,
        hllt, hhlt, hcross, hlow1hh', hllhigh', ?_, ?_⟩
      · simp only [partLoopF]
        rw [hll'd, hhh'd, if_pos hcross]
      · intro k hk1 hk2
        by_cases hkll : k ≤ ll
        · exact Iup k hk1 hkll
        · obtain ⟨v, hv, hlt⟩ := hupspec k (by omega) (by omega)
          exact ⟨v, hv, le_of_lt hlt⟩
      · intro k hk1 hk2
        by_cases hkhh : hh ≤ k
        · exact Idn k hkhh hk2
        · obtain ⟨v, hv, hgt⟩ := hdnspec k (by omega) (by omega)
          exact ⟨v, hv, le_of_lt hgt⟩
    · have hle : ll' ≤ hh' := by omega
      obtain ⟨vll, hvll, hpvle⟩ : ∃ v, getI a ll' = some v ∧ pv ≤ v := by
        rcases hll'd ▸ lem_scanUp_stop a low hpv ll with hnone | h
        · obtain ⟨v, hv⟩ := lem_getI_isSome (a := a) (i := ll')
            (by omega) (by omega)
          rw [hnone] at hv
          exact Option.noConfusion hv
        · exact h
      obtain ⟨vhh, hvhh, hvhhle⟩ : ∃ v, getI a hh' = some v ∧ v ≤ pv := by
        rcases hhh'd ▸ lem_scanDown_stop a low hpv hh with hnone | h
        · obtain ⟨v, hv⟩ := lem_getI_isSome (a := a) (i := hh')
            (by omega) (by omega)
          rw [hnone] at hv
          exact Option.noConfusion hv
        · exact h
      have hblen : (lswap a ll' hh').length = a.length := lem_lswap_length a ll' hh'
      have hbperm : List.Perm (lswap a ll' hh') a := lem_lswap_perm hvll hvhh
      have hbget := lem_getI_lswap hvll hvhh
      have hpv' : getI (lswap a ll' hh') low = some pv := by
        rw [hbget low, if_neg (by omega), if_neg (by omega)]
        exact hpv
      have Iup' : ∀ k, low + 1 ≤ k → k ≤ ll' →
          ∃ v, getI (lswap a ll' hh') k = some v ∧ v ≤ pv := by
        intro k hk1 hk2
        by_cases hkll' : k = ll'
        · subst hkll'
          rw [hbget k, if_pos rfl]
          exact ⟨vhh, rfl, hvhhle⟩
        · have hkne2 : k ≠ hh' := by omega
          rw [hbget k, if_neg hkll', if_neg hkne2]
          by_cases hkll : k ≤ ll
          · exact Iup k hk1 hkll
          · obtain ⟨v, hv, hlt⟩ := hupspec k (by omega) (by omega)
            exact ⟨v, hv, le_of_lt hlt⟩
      have Idn' : ∀ k, hh' ≤ k → k ≤ high →
          ∃ v, getI (lswap a ll' hh') k = some v ∧ pv ≤ v := by
        intro k hk1 hk2
        by_cases hkhh' : k = hh'
        · subst hkhh'
          by_cases heq2 : k = ll'
          · rw [hbget k, if_pos heq2]
            have : vll = vhh := by
              rw [heq2] at hvhh
              rw [hvll] at hvhh
              exact Option.some.inj hvhh
            exact ⟨vhh, rfl, this ▸ hpvle⟩
          · rw [hbget k, if_neg heq2, if_pos rfl]
            exact ⟨vll, rfl, hpvle⟩
        · have hkne : k ≠ ll' := by omega
          rw [hbget k, if_neg hkne, if_neg hkhh']
          by_cases hkhh : hh ≤ k
          · exact Idn k hkhh hk2
          · obtain ⟨v, hv, hgt⟩ := hdnspec k (by omega) (by omega)
            exact ⟨v, hv, le_of_lt hgt⟩
      rcases ih (lswap a ll' hh') low ll' hh' high pv hpv' h0 (by omega) hle
          (by omega) (by omega) (by omega) (by rw [hblen]; exact hhigh) Iup' Idn'
          (by omega) with
        ⟨a', llf, hhf, heq, hlen', hperm', hframe', hll1, hhh1, hcross1,
          hlowhhf, hllfhigh, Ple, Pge⟩
      refine ⟨a', llf, hhf, ?_, by rw [hlen', hblen], hperm'.trans hbperm, ?_,
        by omega, by omega, hcross1, hlowhhf, hllfhigh, Ple, Pge⟩
      · simp only [partLoopF]
        rw [hll'd, hhh'd, if_neg hcross]
        exact heq
      · intro k hk
        rcases hk with hk | hk
        · rw [hframe' k (Or.inl hk), hbget k, if_neg (by omega), if_neg (by omega)]
        · rw [hframe' k (Or.inr hk), hbget k, if_neg (by omega), if_neg (by omega)]

/-! ### Quickselect: sortedness machinery -/

theorem lem_sortL_perm (l : List Int) : List.Perm (sortL l) l :=
  List.perm_insertionSort _ l

theorem lem_sortL_sorted (l : List Int) : List.Sorted (· ≤ ·) (sortL l) :=
  List.sorted_insertionSort _ l

theorem lem_sortL_length (l : List Int) : (sortL l).length = l.length :=
  List.length_insertionSort _ l

theorem lem_sortL_congr {a b : List Int} (h : List.Perm a b) : sortL a = sortL b :=
  List.eq_of_perm_of_sorted
    ((lem_sortL_perm a).trans (h.trans (lem_sortL_perm b).symm))
    (lem_sortL_sorted a) (lem_sortL_sorted b)

theorem lem_getI_natCast (a : List Int) (n : Nat) : getI a (n : Int) = a[n]? := by
  unfold getI
  rw [if_pos (by omega), Int.toNat_natCast]

theorem lem_mem_of_getElem? {l : List Int} {n : Nat} {v : Int}
    (h : l[n]? = some v) : v ∈ l := by
  obtain ⟨hb, e⟩ := List.getElem?_eq_some.mp h
  exact e ▸ List.getElem_mem hb

/-- If everything strictly before position `m` is bounded by the value at
`m`, that value is bounded by everything strictly after `m`, and the
before-part is bounded by the after-part, then the value at `m` already
sits at its sorted position. -/
theorem lem_sorted_at (a : List Int) (m : Nat) (hm : m < a.length) (vm : Int)
    (hvm : getI a (m : Int) = some vm)
    (H1 : ∀ i x, i < (m : Int) → getI a i = some x → x ≤ vm)
    (H2 : ∀ j y, (m : Int) < j → getI a j = some y → vm ≤ y)
    (H3 : ∀ i j x y, i < (m : Int) → (m : Int) < j →
      getI a i = some x → getI a j = some y → x ≤ y) :
    (sortL a)[m]? = some vm := by
  have hvm' : a[m] = vm := by
    rw [lem_getI_natCast] at hvm
    obtain ⟨hb, e⟩ := List.getElem?_eq_some.mp hvm
    exact e
  have hdecomp : a = a.take m ++ vm :: a.drop (m + 1) := by
    conv_lhs => rw [← List.take_append_drop m a]
    rw [List.drop_eq_getElem_cons hm, hvm']
  have hmem_take : ∀ x ∈ sortL (a.take m), ∃ i : Nat, i < m ∧ getI a (i : Int) = some x := by
    intro x hx
    have hx' : x ∈ a.take m := ((lem_sortL_perm _).mem_iff).mp hx
    obtain ⟨n, hn, he⟩ := List.mem_iff_getElem.mp hx'
    have hnm : n < m := by
      have := List.length_take m a
      omega
    refine ⟨n, hnm, ?_⟩
    rw [lem_getI_natCast, List.getElem?_eq_getElem (by omega : n < a.length)]
    rw [List.getElem_take] at he
    rw [he]
  have hmem_drop : ∀ y ∈ sortL (a.drop (m + 1)),
      ∃ j : Nat, m < j ∧ getI a (j : Int) = some y := by
    intro y hy
    have hy' : y ∈ a.drop (m + 1) := ((lem_sortL_perm _).mem_iff).mp hy
    obtain ⟨n, hn, he⟩ := List.mem_iff_getElem.mp hy'
    have hlen : (a.drop (m + 1)).length = a.length - (m + 1) := List.length_drop _ _
    refine ⟨m + 1 + n, by omega, ?_⟩
    rw [lem_getI_natCast, List.getElem?_eq_getElem (by omega : m + 1 + n < a.length)]
    rw [List.getElem_drop] at he
    rw [he]
  have hsorted : List.Sorted (· ≤ ·) (sortL (a.take m) ++ vm :: sortL (a.drop (m + 1))) := by
    rw [List.Sorted, List.pairwise_append]
    refine ⟨lem_sortL_sorted _, ?_, ?_⟩
    · rw [List.pairwise_cons]
      refine ⟨?_, lem_sortL_sorted _⟩
      intro y hy
      obtain ⟨j, hj, hjy⟩ := hmem_drop y hy
      exact H2 j y (by omega) hjy
    · intro x hx y hy
      obtain ⟨i, hi, hix⟩ := hmem_take x hx
      rcases List.mem_cons.mp hy with rfl | hy'
      · exact H1 i x (by omega) hix
      · obtain ⟨j, hj, hjy⟩ := hmem_drop y hy'
        exact H3 i j x y (by omega) (by omega) hix hjy
  have hperm : List.Perm (sortL (a.take m) ++ vm :: sortL (a.drop (m + 1))) a := by
    conv_rhs => rw [hdecomp]
    exact List.Perm.append (lem_sortL_perm _) (List.Perm.cons vm (lem_sortL_perm _))
  have heq : sortL a = sortL (a.take m) ++ vm :: sortL (a.drop (m + 1)) :=
    List.eq_of_perm_of_sorted ((lem_sortL_perm a).trans hperm.symm)
      (lem_sortL_sorted a) hsorted
  rw [heq]
  have hlen : (sortL (a.take m)).length = m := by
    rw [lem_sortL_length, List.length_take]
    omega
  rw [List.getElem?_append_right (by omega), hlen]
  simp

/-! ### Quickselect: the Settled invariant -/

theorem lem_window_values {a b : List Int} {low high : Int}
    (h0 : 0 ≤ low) (hlen : b.length = a.length) (hperm : List.Perm b a)
    (hframe : ∀ k : Int, k < low ∨ high < k → getI b k = getI a k) :
    ∀ j y, low ≤ j → j ≤ high → getI b j = some y →
      ∃ j', low ≤ j' ∧ j' ≤ high ∧ getI a j' = some y := by
  intro j y hj1 hj2 hjv
  have hhigh0 : 0 ≤ high := le_trans (le_trans h0 hj1) hj2
  have hjb := lem_getI_bounds hjv
  have hlo : (low.toNat : Int) = low := Int.toNat_of_nonneg h0
  have hhi : (high.toNat : Int) = high := Int.toNat_of_nonneg hhigh0
  have hlohi : low.toNat ≤ high.toNat := by omega
  have hpre : b.take low.toNat = a.take low.toNat := by
    apply List.ext_getElem?
    intro n
    rw [List.getElem?_take, List.getElem?_take]
    split
    · rename_i hn
      have := hframe (n : Int) (Or.inl (by omega))
      rwa [lem_getI_natCast, lem_getI_natCast] at this
    · rfl
  have hsuf : b.drop (high.toNat + 1) = a.drop (high.toNat + 1) := by
    apply List.ext_getElem?
    intro n
    rw [List.getElem?_drop, List.getElem?_drop]
    have := hframe ((high.toNat + 1 + n : Nat) : Int) (Or.inr (by push_cast; omega))
    rwa [lem_getI_natCast, lem_getI_natCast] at this
  have hbdec : b = b.take low.toNat ++
      ((b.drop low.toNat).take (high.toNat + 1 - low.toNat) ++ b.drop (high.toNat + 1)) := by
    conv_lhs => rw [← List.take_append_drop low.toNat b]
    congr 1
    conv_lhs => rw [← List.take_append_drop (high.toNat + 1 - low.toNat) (b.drop low.toNat)]
    rw [List.drop_drop]
    congr 2
    omega
  have hadec : a = a.take low.toNat ++
      ((a.drop low.toNat).take (high.toNat + 1 - low.toNat) ++ a.drop (high.toNat + 1)) := by
    conv_lhs => rw [← List.take_append_drop low.toNat a]
    congr 1
    conv_lhs => rw [← List.take_append_drop (high.toNat + 1 - low.toNat) (a.drop low.toNat)]
    rw [List.drop_drop]
    congr 2
    omega
  have hmid : List.Perm ((b.drop low.toNat).take (high.toNat + 1 - low.toNat))
      ((a.drop low.toNat).take (high.toNat + 1 - low.toNat)) := by
    have hp := hperm
    rw [hbdec, hadec, hpre, hsuf] at hp
    have hp1 := (List.perm_append_left_iff _).mp hp
    exact (List.perm_append_right_iff _).mp hp1
  have hyb : y ∈ (b.drop low.toNat).take (high.toNat + 1 - low.toNat) := by
    apply lem_mem_of_getElem? (n := j.toNat - low.toNat)
    rw [List.getElem?_take, if_pos (by omega), List.getElem?_drop]
    have harith : low.toNat + (j.toNat - low.toNat) = j.toNat := by omega
    rw [harith]
    unfold getI at hjv
    rwa [if_pos (by omega)] at hjv
  have hya : y ∈ (a.drop low.toNat).take (high.toNat + 1 - low.toNat) :=
    (hmid.mem_iff).mp hyb
  obtain ⟨n, hn, hval⟩ := List.mem_iff_getElem.mp hya
  have hnlt : n < high.toNat + 1 - low.toNat := by
    have := List.length_take (high.toNat + 1 - low.toNat) (a.drop low.toNat)
    omega
  refine ⟨((low.toNat + n : Nat) : Int), by push_cast; omega, by push_cast; omega, ?_⟩
  rw [lem_getI_natCast]
  rw [List.getElem_take] at hval
  rw [List.getElem_drop] at hval
  rw [List.getElem?_eq_getElem (by
    have h1 := List.length_take (high.toNat + 1 - low.toNat) (a.drop low.toNat)
    have h2 := List.length_drop low.toNat a
    omega : low.toNat + n < a.length)]
  rw [hval]

theorem lem_settled_preserve {a b : List Int} {low high : Int}
    (h0 : 0 ≤ low) (hlen : b.length = a.length) (hperm : List.Perm b a)
    (hframe : ∀ k : Int, k < low ∨ high < k → getI b k = getI a k)
    (hs : Settled a low high) : Settled b low high := by
  obtain ⟨S1, S2⟩ := hs
  constructor
  · intro i j x y hi hj hxi hyj
    have hxa : getI a i = some x := by
      rw [← hframe i (Or.inl hi)]
      exact hxi
    by_cases hjh : j ≤ high
    · obtain ⟨j', hj'1, hj'2, hyj'⟩ :=
        lem_window_values h0 hlen hperm hframe j y hj hjh hyj
      exact S1 i j' x y hi hj'1 hxa hyj'
    · have hya : getI a j = some y := by
        rw [← hframe j (Or.inr (by omega))]
        exact hyj
      exact S1 i j x y hi hj hxa hya
  · intro i j x y hi hj hxi hyj
    have hya : getI a j = some y := by
      rw [← hframe j (Or.inr hj)]
      exact hyj
    by_cases hil : i < low
    · have hxa : getI a i = some x := by
        rw [← hframe i (Or.inl hil)]
        exact hxi
      exact S2 i j x y hi hj hxa hya
    · obtain ⟨i', hi'1, hi'2, hxi'⟩ :=
        lem_window_values h0 hlen hperm hframe i x (by omega) hi hxi
      exact S2 i' j x y hi'2 hj hxi' hya

/-! ### Quickselect: median-of-three preprocessing -/

theorem lem_med3_spec (a : List Int) (low mid high : Int)
    (h0 : 0 ≤ low) (h1 : low < mid) (h2 : mid < high) (h3 : high < (a.length : Int)) :
    (lswap (cmpSwap (cmpSwap (cmpSwap a mid high) low high) mid low) mid (low + 1)).length
        = a.length ∧
    List.Perm (lswap (cmpSwap (cmpSwap (cmpSwap a mid high) low high) mid low) mid (low + 1)) a ∧
    (∀ k, k < low ∨ high < k →
      getI (lswap (cmpSwap (cmpSwap (cmpSwap a mid high) low high) mid low) mid (low + 1)) k
        = getI a k) ∧
    ∃ pv v1 vh,
      getI (lswap (cmpSwap (cmpSwap (cmpSwap a mid high) low high) mid low) mid (low + 1)) low
        = some pv ∧
      getI (lswap (cmpSwap (cmpSwap (cmpSwap a mid high) low high) mid low) mid (low + 1)) (low + 1)
        = some v1 ∧
      getI (lswap (cmpSwap (cmpSwap (cmpSwap a mid high) low high) mid low) mid (low + 1)) high
        = some vh ∧
      v1 ≤ pv ∧ pv ≤ vh := by
  obtain ⟨x0l, hx0l⟩ := lem_getI_isSome (a := a) (i := low) h0 (by omega)
  obtain ⟨x0m, hx0m⟩ := lem_getI_isSome (a := a) (i := mid) (by omega) (by omega)
  obtain ⟨x0h, hx0h⟩ := lem_getI_isSome (a := a) (i := high) (by omega) h3
  -- step 1: if (arr[middle] > arr[high]) swap(middle, high)
  obtain ⟨x1m, x1h, hx1m, hx1h, hle1, hpair1⟩ := lem_cmpSwap_post hx0m hx0h (by omega)
  have hs1len : (cmpSwap a mid high).length = a.length := lem_cmpSwap_length a mid high
  have hs1perm := lem_cmpSwap_perm a mid high
  have hx1l : getI (cmpSwap a mid high) low = some x0l := by
    rw [lem_cmpSwap_frame low (by omega) (by omega)]
    exact hx0l
  -- step 2: if (arr[low] > arr[high]) swap(low, high)
  obtain ⟨x2l, x2h, hx2l, hx2h, hle2, hpair2⟩ := lem_cmpSwap_post hx1l hx1h (by omega)
  have hs2len : (cmpSwap (cmpSwap a mid high) low high).length = a.length := by
    rw [lem_cmpSwap_length, hs1len]
  have hs2perm := (lem_cmpSwap_perm (cmpSwap a mid high) low high).trans hs1perm
  have hx2m : getI (cmpSwap (cmpSwap a mid high) low high) mid = some x1m := by
    rw [lem_cmpSwap_frame mid (by omega) (by omega)]
    exact hx1m
  have hm_le_h2 : x1m ≤ x2h := by
    rcases hpair2 with ⟨hl, hh⟩ | ⟨hl, hh⟩
    · omega
    · omega
  -- step 3: if (arr[middle] > arr[low]) swap(middle, low)
  obtain ⟨x3m, x3l, hx3m, hx3l, hle3, hpair3⟩ := lem_cmpSwap_post hx2m hx2l (by omega)
  have hs3len :
      (cmpSwap (cmpSwap (cmpSwap a mid high) low high) mid low).length = a.length := by
    rw [lem_cmpSwap_length, hs2len]
  have hs3perm :=
    (lem_cmpSwap_perm (cmpSwap (cmpSwap a mid high) low high) mid low).trans hs2perm
  have hx3h : getI (cmpSwap (cmpSwap (cmpSwap a mid high) low high) mid low) high
      = some x2h := by
    rw [lem_cmpSwap_frame high (by omega) (by omega)]
    exact hx2h
  have hl_le_h3 : x3l ≤ x2h := by
    rcases hpair3 with ⟨hm, hl⟩ | ⟨hm, hl⟩
    · omega
    · omega
  -- step 4: swap(middle, low + 1)
  obtain ⟨w1, hw1⟩ := lem_getI_isSome
    (a := cmpSwap (cmpSwap (cmpSwap a mid high) low high) mid low) (i := low + 1)
    (by omega) (by rw [hs3len]; omega)
  have hget4 := lem_getI_lswap hx3m hw1
  have hlen4 :
      (lswap (cmpSwap (cmpSwap (cmpSwap a mid high) low high) mid low) mid (low + 1)).length
        = a.length := by
    rw [lem_lswap_length, hs3len]
  have hperm4 :=
    (lem_lswap_perm hx3m hw1).trans hs3perm
  refine ⟨hlen4, hperm4, ?_, x3l, x3m, x2h, ?_, ?_, ?_, hle3, hl_le_h3⟩
  · intro k hk
    have hk1 : k ≠ mid := by omega
    have hk2 : k ≠ low + 1 := by omega
    rw [hget4 k, if_neg hk1, if_neg hk2]
    rw [lem_cmpSwap_frame k (by omega) (by omega),
      lem_cmpSwap_frame k (by omega) (by omega),
      lem_cmpSwap_frame k (by omega) (by omega)]
  · rw [hget4 low, if_neg (by omega), if_neg (by omega)]
    exact hx3l
  · by_cases hml : low + 1 = mid
    · rw [hget4 (low + 1), if_pos hml]
      have hw1' := hw1
      rw [hml] at hw1'
      have : w1 = x3m := Option.some.inj (hw1'.symm.trans hx3m)
      rw [this]
    · rw [hget4 (low + 1), if_neg hml, if_pos rfl]
  · rw [hget4 high, if_neg (by omega), if_neg (by omega)]
    exact hx3h

/-! ### Quickselect: extending the Settled region past a placed pivot -/

theorem lem_settled_extend_low {a : List Int} {low high L pv : Int}
    (hs : Settled a low high) (hlowL : low ≤ L) (hLhigh : L ≤ high + 1)
    (hle : ∀ k, low ≤ k → k ≤ L - 1 → ∃ v, getI a k = some v ∧ v ≤ pv)
    (hge : ∀ k, L ≤ k → k ≤ high → ∃ v, getI a k = some v ∧ pv ≤ v) :
    Settled a L high := by
  obtain ⟨S1, S2⟩ := hs
  refine ⟨?_, S2⟩
  intro i j x y hi hj hxi hyj
  by_cases hil : i < low
  · exact S1 i j x y hil (by omega) hxi hyj
  · obtain ⟨v, hv, hvle⟩ := hle i (by omega) (by omega)
    have hxv : x = v := Option.some.inj (hxi.symm.trans hv)
    by_cases hjh : j ≤ high
    · obtain ⟨w, hw, hwge⟩ := hge j hj hjh
      have hyw : y = w := Option.some.inj (hyj.symm.trans hw)
      omega
    · exact S2 i j x y (by omega) (by omega) hxi hyj

theorem lem_settled_extend_high {a : List Int} {low high H pv : Int}
    (hs : Settled a low high) (hH1 : low - 1 ≤ H) (hHhigh : H ≤ high)
    (hle : ∀ k, low ≤ k → k ≤ H → ∃ v, getI a k = some v ∧ v ≤ pv)
    (hge : ∀ k, H + 1 ≤ k → k ≤ high → ∃ v, getI a k = some v ∧ pv ≤ v) :
    Settled a low H := by
  obtain ⟨S1, S2⟩ := hs
  refine ⟨S1, ?_⟩
  intro i j x y hi hj hxi hyj
  by_cases hjh : j ≤ high
  · obtain ⟨w, hw, hwge⟩ := hge j (by omega) hjh
    have hyw : y = w := Option.some.inj (hyj.symm.trans hw)
    by_cases hil : i < low
    · exact S1 i j x y hil (by omega) hxi hyj
    · obtain ⟨v, hv, hvle⟩ := hle i (by omega) hi
      have hxv : x = v := Option.some.inj (hxi.symm.trans hv)
      omega
  · exact S2 i j x y (by omega) (by omega) hxi hyj

/-- A position holding `pv`, dominated by everything after it up to
`high` and dominating everything before it down to `low`, inside a
Settled window, already holds its sorted value. -/
theorem lem_pivot_sorted_at {a : List Int} {low high q pv : Int}
    (hset : Settled a low high)
    (h0 : 0 ≤ low) (hq1 : low ≤ q) (hq2 : q ≤ high) (hlen : high < (a.length : Int))
    (hpvq : getI a q = some pv)
    (hW1 : ∀ k, low ≤ k → k < q → ∃ v, getI a k = some v ∧ v ≤ pv)
    (hW3 : ∀ k, q < k → k ≤ high → ∃ v, getI a k = some v ∧ pv ≤ v) :
    (sortL a)[q.toNat]? = some pv := by
  have hq0 : 0 ≤ q := by omega
  have hcast : ((q.toNat : Nat) : Int) = q := Int.toNat_of_nonneg hq0
  apply lem_sorted_at a q.toNat (by omega) pv
  · rw [hcast]
    exact hpvq
  · intro i x hi hxi
    rw [hcast] at hi
    by_cases hil : i < low
    · exact hset.1 i q x pv hil hq1 hxi hpvq
    · obtain ⟨v, hv, hvle⟩ := hW1 i (by omega) hi
      have := Option.some.inj (hxi.symm.trans hv)
      omega
  · intro j y hj hyj
    rw [hcast] at hj
    by_cases hjh : j ≤ high
    · obtain ⟨v, hv, hvge⟩ := hW3 j hj hjh
      have := Option.some.inj (hyj.symm.trans hv)
      omega
    · exact hset.2 q j pv y hq2 (by omega) hpvq hyj
  · intro i j x y hi hj hxi hyj
    rw [hcast] at hi hj
    by_cases hil : i < low
    · exact hset.1 i j x y hil (by omega) hxi hyj
    · obtain ⟨v, hv, hvle⟩ := hW1 i (by omega) hi
      have hxv := Option.some.inj (hxi.symm.trans hv)
      by_cases hjh : j ≤ high
      · obtain ⟨w, hw, hwge⟩ := hW3 j hj hjh
        have hyw := Option.some.inj (hyj.symm.trans hw)
        omega
      · exact hset.2 i j x y (by omega) (by omega) hxi hyj

/-- Main invariant-preservation induction for the outer loop of
`quickSelect`: with enough fuel, a Settled window around the (fixed)
median index, and the median either inside the window or already settled,
the loop returns the median of the fully sorted array. -/
theorem lem_go_correct :
    ∀ (fuel : Nat) (arr : List Int) (low high median : Int),
      (high - low).toNat < fuel →
      0 ≤ low →
      high < (arr.length : Int) →
      0 ≤ median → median < (arr.length : Int) →
      Settled arr low high →
      ((low ≤ median ∧ median ≤ high) ∨
        ((median < low ∨ high < median) ∧
          getI arr median = (sortL arr)[median.toNat]?)) →
      ∃ v, quickSelectGo fuel arr low high median = some (some v) ∧
        (sortL arr)[median.toNat]? = some v := by
  intro fuel
  induction fuel with
  | zero =>
    intro arr low high median hfuel
    omega
  | succ n ih =>
    intro arr low high median hfuel h0 hhigh hmed0 hmedlt hset hmede
    obtain ⟨vm, hvm⟩ := lem_getI_isSome (a := arr) (i := median) hmed0 hmedlt
    by_cases hexit : high ≤ low
    · -- return arr[median]
      have hcomp : quickSelectGo (n + 1) arr low high median
          = some (getI arr median) := by
        simp only [quickSelectGo, if_pos hexit]
      rcases hmede with ⟨hml, hmh⟩ | ⟨houts, hval⟩
      · have heq : (sortL arr)[median.toNat]? = some vm := by
          refine lem_pivot_sorted_at hset h0 hml hmh hhigh hvm ?_ ?_
          · intro k hk1 hk2
            exact absurd hk2 (by omega)
          · intro k hk1 hk2
            exact absurd hk1 (by omega)
        exact ⟨vm, by rw [hcomp, hvm], heq⟩
      · exact ⟨vm, by rw [hcomp, hvm], by rw [← hval]; exact hvm⟩
    · by_cases htwo : high = low + 1
      · -- two-element window: conditional swap, then return arr[median]
        have hcomp : quickSelectGo (n + 1) arr low high median
            = some (getI (cmpSwap arr low high) median) := by
          simp only [quickSelectGo, if_neg hexit, if_pos htwo]
        obtain ⟨xl, hxl⟩ := lem_getI_isSome (a := arr) (i := low) h0 (by omega)
        obtain ⟨xh, hxh⟩ := lem_getI_isSome (a := arr) (i := high) (by omega) hhigh
        obtain ⟨x, y, hx, hy, hxy, hpair⟩ := lem_cmpSwap_post hxl hxh (by omega)
        have hblen : (cmpSwap arr low high).length = arr.length :=
          lem_cmpSwap_length arr low high
        have hbperm := lem_cmpSwap_perm arr low high
        have hsorteq : sortL (cmpSwap arr low high) = sortL arr :=
          lem_sortL_congr hbperm
        rcases hmede with ⟨hml, hmh⟩ | ⟨houts, hval⟩
        · have hset' : Settled (cmpSwap arr low high) low high :=
            lem_settled_preserve h0 hblen hbperm
              (fun k hk => lem_cmpSwap_frame k (by omega) (by omega)) hset
          by_cases hmlow : median = low
          · have heq : (sortL (cmpSwap arr low high))[median.toNat]? = some x := by
              subst hmlow
              refine lem_pivot_sorted_at hset' h0 (le_refl _) (by omega)
                (by rw [hblen]; exact hhigh) hx ?_ ?_
              · intro k hk1 hk2
                exact absurd hk2 (by omega)
              · intro k hk1 hk2
                have hk : k = high := by omega
                subst hk
                exact ⟨y, hy, hxy⟩
            refine ⟨x, ?_, by rw [← hsorteq]; exact heq⟩
            rw [hcomp, hmlow, hx]
          · have hmhigh : median = high := by omega
            have heq : (sortL (cmpSwap arr low high))[median.toNat]? = some y := by
              subst hmhigh
              refine lem_pivot_sorted_at hset' h0 (by omega) (le_refl _)
                (by rw [hblen]; exact hhigh) hy ?_ ?_
              · intro k hk1 hk2
                have hk : k = low := by omega
                subst hk
                exact ⟨x, hx, hxy⟩
              · intro k hk1 hk2
                exact absurd hk1 (by omega)
            refine ⟨y, ?_, by rw [← hsorteq]; exact heq⟩
            rw [hcomp, hmhigh, hy]
        · have hframe : getI (cmpSwap arr low high) median = getI arr median :=
            lem_cmpSwap_frame median (by omega) (by omega)
          refine ⟨vm, ?_, by rw [← hval]; exact hvm⟩
          rw [hcomp, hframe, hvm]
      · -- general window: median-of-three, partition, recurse
        have hge2 : low + 2 ≤ high := by omega
        have hmidlb : low + 1 ≤ calcMiddle low high := by
          unfold calcMiddle
          rw [Int.tdiv_eq_ediv (by omega) (by omega)]
          omega
        have hmidub : calcMiddle low high ≤ high - 1 := by
          unfold calcMiddle
          rw [Int.tdiv_eq_ediv (by omega) (by omega)]
          omega
        obtain ⟨a4, ha4⟩ : ∃ x, lswap (cmpSwap (cmpSwap (cmpSwap arr
            (calcMiddle low high) high) low high) (calcMiddle low high) low)
            (calcMiddle low high) (low + 1) = x := ⟨_, rfl⟩
        obtain ⟨hlen4, hperm4, hframe4, pv, v1, vh, hpv4, hv14, hvh4, hv1pv, hpvvh⟩ :=
          ha4 ▸ lem_med3_spec arr low (calcMiddle low high) high h0 (by omega)
            (by omega) hhigh
        have Iup0 : ∀ k, low + 1 ≤ k → k ≤ low + 1 →
            ∃ v, getI a4 k = some v ∧ v ≤ pv := by
          intro k hk1 hk2
          have hk : k = low + 1 := by omega
          subst hk
          exact ⟨v1, hv14, hv1pv⟩
        have Idn0 : ∀ k, high ≤ k → k ≤ high →
            ∃ v, getI a4 k = some v ∧ pv ≤ v := by
          intro k hk1 hk2
          have hk : k = high := by omega
          subst hk
          exact ⟨vh, hvh4, hpvvh⟩
        obtain ⟨a5, llf, hhf, hpl, hlen5, hperm5, hframe5, hllf1, hhhf1, hcross,
            hlowhhf, hllfhigh, Ple, Pge⟩ :=
          lem_partLoop_spec (partFuel high low + 1) a4 low (low + 1) high high pv
            hpv4 h0 (le_refl _) (by omega) (le_refl _) (by omega) (by omega)
            (by rw [hlen4]; exact hhigh) Iup0 Idn0
            (by unfold partFuel; omega)
        have hpv5 : getI a5 low = some pv := by
          rw [hframe5 low (Or.inl (by omega))]
          exact hpv4
        obtain ⟨vq, hvq5, hvqle⟩ := Ple hhf (by omega) (by omega)
        have hget6 := lem_getI_lswap hpv5 hvq5
        have hlen6 : (lswap a5 low hhf).length = arr.length := by
          rw [lem_lswap_length, hlen5, hlen4]
        have hperm6 : List.Perm (lswap a5 low hhf) arr :=
          (lem_lswap_perm hpv5 hvq5).trans (hperm5.trans hperm4)
        have hsort6 : sortL (lswap a5 low hhf) = sortL arr := lem_sortL_congr hperm6
        have W2 : getI (lswap a5 low hhf) hhf = some pv := by
          rw [hget6 hhf, if_neg (by omega), if_pos rfl]
        have W1 : ∀ k, low ≤ k → k < hhf →
            ∃ v, getI (lswap a5 low hhf) k = some v ∧ v ≤ pv := by
          intro k hk1 hk2
          by_cases hkl : k = low
          · subst hkl
            rw [hget6 k, if_pos rfl]
            exact ⟨vq, rfl, hvqle⟩
          · rw [hget6 k, if_neg hkl, if_neg (by omega)]
            exact Ple k (by omega) (by omega)
        have Wle : ∀ k, low ≤ k → k ≤ llf - 1 →
            ∃ v, getI (lswap a5 low hhf) k = some v ∧ v ≤ pv := by
          intro k hk1 hk2
          by_cases hkl : k = low
          · subst hkl
            rw [hget6 k, if_pos rfl]
            exact ⟨vq, rfl, hvqle⟩
          · by_cases hkq : k = hhf
            · subst hkq
              exact ⟨pv, W2, le_refl pv⟩
            · rw [hget6 k, if_neg hkl, if_neg hkq]
              exact Ple k (by omega) hk2
        have W3 : ∀ k, hhf < k → k ≤ high →
            ∃ v, getI (lswap a5 low hhf) k = some v ∧ pv ≤ v := by
          intro k hk1 hk2
          rw [hget6 k, if_neg (by omega), if_neg (by omega)]
          exact Pge k hk1 hk2
        have Wge : ∀ k, hhf ≤ k → k ≤ high →
            ∃ v, getI (lswap a5 low hhf) k = some v ∧ pv ≤ v := by
          intro k hk1 hk2
          by_cases hkq : k = hhf
          · subst hkq
            exact ⟨pv, W2, le_refl pv⟩
          · exact W3 k (by omega) hk2
        have frame6 : ∀ k, k < low ∨ high < k →
            getI (lswap a5 low hhf) k = getI arr k := by
          intro k hk
          rcases hk with hk | hk
          · rw [hget6 k, if_neg (by omega), if_neg (by omega),
              hframe5 k (Or.inl (by omega)), hframe4 k (Or.inl hk)]
          · rw [hget6 k, if_neg (by omega), if_neg (by omega),
              hframe5 k (Or.inr (by omega)), hframe4 k (Or.inr hk)]
        have hset6 : Settled (lswap a5 low hhf) low high :=
          lem_settled_preserve h0 hlen6 hperm6 frame6 hset
        have hcomp : quickSelectGo (n + 1) arr low high median
            = quickSelectGo n (lswap a5 low hhf)
                (if hhf ≤ median then llf else low)
                (if median ≤ hhf then hhf - 1 else high) median := by
          simp only [quickSelectGo, if_neg hexit, if_neg htwo]
          rw [ha4, hpl]
        have hSlow : Settled (lswap a5 low hhf) llf high := by
          refine lem_settled_extend_low hset6 (by omega) (by omega) Wle ?_
          intro k hk1 hk2
          exact Wge k (by omega) hk2
        have hShigh : Settled (lswap a5 low hhf) low (hhf - 1) := by
          refine @lem_settled_extend_high (lswap a5 low hhf) low high (hhf - 1) pv
            hset6 (by omega) (by omega) ?_ ?_
          · intro k hk1 hk2
            exact W1 k hk1 (by omega)
          · intro k hk1 hk2
            exact Wge k (by omega) hk2
        -- dispatch on where the median lies relative to the pivot position
        rcases hmede with ⟨hml, hmh⟩ | ⟨houts, hval⟩
        · rcases lt_trichotomy median hhf with hq | hq | hq
          · -- median strictly left of the pivot: recurse into [low, hhf-1]
            rw [if_neg (by omega), if_pos (by omega)] at hcomp
            obtain ⟨v, hgo, hsv⟩ := ih (lswap a5 low hhf) low (hhf - 1) median
              (by omega) h0 (by rw [hlen6]; omega) hmed0 (by rw [hlen6]; exact hmedlt)
              hShigh (Or.inl ⟨hml, by omega⟩)
            exact ⟨v, by rw [hcomp]; exact hgo, by rw [← hsort6]; exact hsv⟩
          · -- median is exactly the pivot position: already settled
            have hval6 : (sortL (lswap a5 low hhf))[median.toNat]? = some pv := by
              subst hq
              exact lem_pivot_sorted_at hset6 h0 (by omega) (by omega)
                (by rw [hlen6]; exact hhigh) W2 W1 W3
            have hmv6 : getI (lswap a5 low hhf) median = some pv := hq ▸ W2
            rw [if_pos (by omega), if_pos (by omega)] at hcomp
            obtain ⟨v, hgo, hsv⟩ := ih (lswap a5 low hhf) llf (hhf - 1) median
              (by omega) (by omega) (by rw [hlen6]; omega) hmed0
              (by rw [hlen6]; exact hmedlt) ⟨hSlow.1, hShigh.2⟩
              (Or.inr ⟨Or.inl (by omega), by rw [hmv6, hval6]⟩)
            exact ⟨v, by rw [hcomp]; exact hgo, by rw [← hsort6]; exact hsv⟩
          · -- median strictly right of the pivot: recurse into [llf, high]
            rw [if_pos (by omega), if_neg (by omega)] at hcomp
            by_cases hin : llf ≤ median
            · obtain ⟨v, hgo, hsv⟩ := ih (lswap a5 low hhf) llf high median
                (by omega) (by omega) (by rw [hlen6]; exact hhigh) hmed0
                (by rw [hlen6]; exact hmedlt) hSlow (Or.inl ⟨hin, hmh⟩)
              exact ⟨v, by rw [hcomp]; exact hgo, by rw [← hsort6]; exact hsv⟩
            · -- median falls in the equal-to-pivot gap between hhf and llf
              have hmv6 : getI (lswap a5 low hhf) median = some pv := by
                obtain ⟨v', hv', hle'⟩ := Ple median (by omega) (by omega)
                obtain ⟨w', hw', hge'⟩ := Pge median (by omega) (by omega)
                have hvw : v' = w' := Option.some.inj (hv'.symm.trans hw')
                have hveq : v' = pv := by omega
                rw [hget6 median, if_neg (by omega), if_neg (by omega), hv', hveq]
              have hval6 : (sortL (lswap a5 low hhf))[median.toNat]? = some pv := by
                refine lem_pivot_sorted_at hset6 h0 (by omega) (by omega)
                  (by rw [hlen6]; exact hhigh) hmv6 ?_ ?_
                · intro k hk1 hk2
                  exact Wle k hk1 (by omega)
                · intro k hk1 hk2
                  exact Wge k (by omega) hk2
              obtain ⟨v, hgo, hsv⟩ := ih (lswap a5 low hhf) llf high median
                (by omega) (by omega) (by rw [hlen6]; exact hhigh) hmed0
                (by rw [hlen6]; exact hmedlt) hSlow
                (Or.inr ⟨Or.inl (by omega), by rw [hmv6, hval6]⟩)
              exact ⟨v, by rw [hcomp]; exact hgo, by rw [← hsort6]; exact hsv⟩
        · -- median already outside the window and settled: value is framed
          have hmv6 : getI (lswap a5 low hhf) median = getI arr median := by
            rcases houts with h | h
            · exact frame6 median (Or.inl h)
            · exact frame6 median (Or.inr h)
          have hval6 : getI (lswap a5 low hhf) median
              = (sortL (lswap a5 low hhf))[median.toNat]? := by
            rw [hmv6, hsort6, hval]
          by_cases hc1 : hhf ≤ median
          · have hc2 : ¬ median ≤ hhf := by
              intro hc
              have : median = hhf := by omega
              rcases houts with h | h <;> omega
            rw [if_pos hc1, if_neg hc2] at hcomp
            obtain ⟨v, hgo, hsv⟩ := ih (lswap a5 low hhf) llf high median
              (by omega) (by omega) (by rw [hlen6]; exact hhigh) hmed0
              (by rw [hlen6]; exact hmedlt) hSlow
              (Or.inr ⟨by rcases houts with h | h <;> omega, hval6⟩)
            exact ⟨v, by rw [hcomp]; exact hgo, by rw [← hsort6]; exact hsv⟩
          · rw [if_neg hc1, if_pos (by omega)] at hcomp
            obtain ⟨v, hgo, hsv⟩ := ih (lswap a5 low hhf) low (hhf - 1) median
              (by omega) h0 (by rw [hlen6]; omega) hmed0
              (by rw [hlen6]; exact hmedlt) hShigh
              (Or.inr ⟨by rcases houts with h | h <;> omega, hval6⟩)
            exact ⟨v, by rw [hcomp]; exact hgo, by rw [← hsort6]; exact hsv⟩

/-- Unconditional totality of the outer loop: with fuel exceeding the
window width, the loop always returns (the partition loop's fuel is
always sufficient, and every round strictly shrinks the window). -/
theorem lem_go_total :
    ∀ (fuel : Nat) (arr : List Int) (low high median : Int),
      (high - low).toNat < fuel →
      ∃ r, quickSelectGo fuel arr low high median = some r := by
  intro fuel
  induction fuel with
  | zero =>
    intro arr low high median h
    omega
  | succ n ih =>
    intro arr low high median hfuel
    by_cases hexit : high ≤ low
    · exact ⟨getI arr median, by simp only [quickSelectGo, if_pos hexit]⟩
    · by_cases htwo : high = low + 1
      · exact ⟨getI (cmpSwap arr low high) median,
          by simp only [quickSelectGo, if_neg hexit, if_pos htwo]⟩
      · obtain ⟨a4, ha4⟩ : ∃ x, lswap (cmpSwap (cmpSwap (cmpSwap arr
            (calcMiddle low high) high) low high) (calcMiddle low high) low)
            (calcMiddle low high) (low + 1) = x := ⟨_, rfl⟩
        obtain ⟨a', llf, hhf, hpl, hll, hhh⟩ :=
          lem_partLoop_total (partFuel high low + 1) a4 low (low + 1) high
            (by unfold partFuel; omega)
        have hfuel' : ((if median ≤ hhf then hhf - 1 else high) -
            (if hhf ≤ median then llf else low)).toNat < n := by
          by_cases hc1 : hhf ≤ median <;> by_cases hc2 : median ≤ hhf <;>
            simp only [hc1, hc2, if_pos, if_neg, if_true, if_false] <;>
            omega
        obtain ⟨r, hr⟩ := ih (lswap a' low hhf)
          (if hhf ≤ median then llf else low)
          (if median ≤ hhf then hhf - 1 else high) median hfuel'
        refine ⟨r, ?_⟩
        simp only [quickSelectGo, if_neg hexit, if_neg htwo]
        rw [ha4, hpl]
        exact hr

/-- Claim C9: `quickSelect` terminates on every finite input array —
the fuel budget `arr.length + 1` of the embedding is never exhausted, on
any input, including all-equal, sorted and reverse-sorted arrays (the
partition's scan loops stop on cursor crossing, bounded by the
in-bounds pivot sentinels, not by a count-down). -/
theorem quickSelect_terminates (arr : List Int) :
    ∃ r, quickSelectRun arr = some r := by
  unfold quickSelectRun
  exact lem_go_total (arr.length + 1) arr 0 ((arr.length : Int) - 1)
    (calcMiddle 0 ((arr.length : Int) - 1)) (by omega)

/-- Claim C2: for every non-empty array, `quickSelect` returns exactly
the value that a full ascending sort places at index
`⌊(length − 1) / 2⌋`, duplicates and pre-sorted inputs included. -/
theorem quickSelect_returns_sorted_median (arr : List Int) (hne : arr ≠ []) :
    ∃ v, quickSelectRun arr = some (some v) ∧ quickSelect arr = some v ∧
      (sortL arr)[(arr.length - 1) / 2]? = some v := by
  have hlen : 1 ≤ arr.length := List.length_pos.mpr hne
  have htoNat : (calcMiddle 0 ((arr.length : Int) - 1)).toNat = (arr.length - 1) / 2 := by
    unfold calcMiddle
    rw [Int.tdiv_eq_ediv (by omega) (by omega)]
    omega
  have hm0 : 0 ≤ calcMiddle 0 ((arr.length : Int) - 1) := by
    unfold calcMiddle
    rw [Int.tdiv_eq_ediv (by omega) (by omega)]
    omega
  have hmlt : calcMiddle 0 ((arr.length : Int) - 1) < (arr.length : Int) := by
    unfold calcMiddle
    rw [Int.tdiv_eq_ediv (by omega) (by omega)]
    omega
  have hsettled : Settled arr 0 ((arr.length : Int) - 1) := by
    constructor
    · intro i j x y hi hj hxi hyj
      have := lem_getI_bounds hxi
      omega
    · intro i j x y hi hj hxi hyj
      have := lem_getI_bounds hyj
      omega
  obtain ⟨v, hgo, hsv⟩ := lem_go_correct (arr.length + 1) arr 0
    ((arr.length : Int) - 1) (calcMiddle 0 ((arr.length : Int) - 1))
    (by omega) (le_refl 0) (by omega) hm0 hmlt hsettled
    (Or.inl ⟨hm0, by omega⟩)
  refine ⟨v, hgo, ?_, ?_⟩
  · unfold quickSelect
    rw [show quickSelectRun arr = some (some v) from hgo]
    rfl
  · rw [← htoNat]
    exact hsv

/-- Witness for `quickSelect_returns_sorted_median` on a concrete
ten-element array with no pre-existing order. -/
theorem quickSelect_returns_sorted_median_witness :
    ([10, 3, 7, 1, 9, 2, 8, 5, 6, 4] : List Int) ≠ [] ∧
    ∃ v, quickSelectRun [10, 3, 7, 1, 9, 2, 8, 5, 6, 4] = some (some v) ∧
      quickSelect [10, 3, 7, 1, 9, 2, 8, 5, 6, 4] = some v ∧
      (sortL [10, 3, 7, 1, 9, 2, 8, 5, 6, 4])[(([10, 3, 7, 1, 9, 2, 8, 5, 6, 4] : List Int).length - 1) / 2]?
        = some v :=
  ⟨by decide, quickSelect_returns_sorted_median _ (by decide)⟩

end MrzScan
